import Mathlib

/-!
# Verification of `ChthollyTree.cpp` (Miscellaneous/ChthollyTree.cpp)

A shallow embedding of the Chtholly tree ("ODT") from the repository: an
interval-compressed sequence represented by a `std::set<Node>` of maximal
same-value runs ordered by their left endpoint, with operations
`build`, `add`, `assign`, `kth`, `powsum` built on the splitting primitive
`split_`, and the modular arithmetic helpers `norm_mod_`, `mulmod_`, `qpow_`.

The `std::set<Node>` (ordered by the `l` field, keys unique) is embedded as a
`List Node` kept sorted by `l`; `std::set` iterator ranges become contiguous
sublists, characterised by conditions on the `l` key.
-/

namespace Chtholly

/-- `ChthollyTree::Node`: one run `[l, r]` (inclusive, 0-indexed) carrying the
value `v` (C++ `int l; int r; mutable ll v;`).  `operator<` compares `l` only,
so the `std::set` orders nodes by `l`. -/
structure Node where
  l : Int
  r : Int
  v : Int
deriving Repr, DecidableEq

/-- The tree state: the node set `s_` as a list sorted by `l`, and the size
`n_`. -/
structure Tree where
  s : List Node
  n : Int
deriving Repr, DecidableEq

/-- Loop body of `ChthollyTree::build`: position `i` becomes the singleton
segment `Node{i, i, a[i]}`; positions are consumed in increasing order, which
is also the `std::set`'s iteration order. -/
def buildGo (i : Int) : List Int → List Node
  | [] => []
  | v :: tl => ⟨i, i, v⟩ :: buildGo (i + 1) tl

/-- `ChthollyTree::build`: clear the set and insert one singleton segment per
element of the 0-indexed input array. -/
def build (a : List Int) : Tree :=
  ⟨buildGo 0 a, (a.length : Int)⟩

/-- Body of `ChthollyTree::split_` after its boundary guards: in the set
ordered by `l`, `lower_bound(Node{pos,..})` finds the first node with
`l >= pos`; if its `l == pos` nothing happens, otherwise the predecessor node
(the last node with `l < pos`, which under the partition invariant is the run
containing `pos`, so `l < pos <= r`) is erased and replaced by the two runs
`[l, pos-1]` and `[pos, r]` with the same value.  On the sorted list this is
realised by scanning for the first node that either starts at `pos` or
strictly contains `pos`. -/
def splitGo (pos : Int) : List Node → List Node
  | [] => []
  | nd :: tl =>
    if nd.l = pos then nd :: tl
    else if nd.l < pos ∧ pos ≤ nd.r then
      ⟨nd.l, pos - 1, nd.v⟩ :: ⟨pos, nd.r, nd.v⟩ :: tl
    else nd :: splitGo pos tl

/-- `ChthollyTree::split_`: if `pos <= 0` return `begin()` with no change; if
`pos >= n_` return `end()` with no change; otherwise split at `pos`.  The
returned iterator is determined by `pos` (the node with `l == pos`), so the
embedding returns the mutated tree only. -/
def split_ (t : Tree) (pos : Int) : Tree :=
  if pos ≤ 0 then t
  else if t.n ≤ pos then t
  else ⟨splitGo pos t.s, t.n⟩

/-- `ChthollyTree::norm_mod_`: `x %= mod; if (x < 0) x += mod;`.  C++ `%` on
`ll` truncates toward zero, i.e. `Int.tmod`. -/
def norm_mod_ (x mod : Int) : Int :=
  let x1 := x.tmod mod
  if x1 < 0 then x1 + mod else x1

/-- Loop of `ChthollyTree::mulmod_` after both operands are normalised into
`[0, mod)` (so the loop counter `b` is a natural number): while `b > 0`, if
the low bit of `b` is set add `a` into `res` reducing once past `mod`; then
double `a` modulo `mod` by the subtraction-based step
`if (a >= mod - a) a = a - (mod - a); else a = a + a;`; shift `b` right.
The `fuel` argument only makes the recursion structural: `b` halves every
step, so `b` itself is enough fuel and the `fuel = 0` branch is reached only
with `b = 0`. -/
def mulmodGo : Nat → Int → Nat → Int → Int → Int
  | 0, _, _, _, res => res
  | fuel + 1, a, b, mod, res =>
    if b = 0 then res
    else
      mulmodGo fuel (if a ≥ mod - a then a - (mod - a) else a + a) (b / 2) mod
        (if b % 2 = 1 then (if res + a ≥ mod then res + a - mod else res + a)
         else res)

/-- `ChthollyTree::mulmod_`: binary (Russian-peasant) modular multiplication;
normalises `a` and `b` into `[0, mod)`, then runs the doubling loop. -/
def mulmod_ (a b mod : Int) : Int :=
  mulmodGo (norm_mod_ b mod).toNat (norm_mod_ a mod) (norm_mod_ b mod).toNat
    mod 0

/-- Loop of `ChthollyTree::qpow_`: while `exp > 0`, multiply `res` by `base`
when the low bit of `exp` is set, square `base`, shift `exp` right; all
products via `mulmod_`.  Fuel as in `mulmodGo`. -/
def qpowGo : Nat → Int → Nat → Int → Int → Int
  | 0, _, _, _, res => res
  | fuel + 1, base, e, mod, res =>
    if e = 0 then res
    else
      qpowGo fuel (mulmod_ base base mod) (e / 2) mod
        (if e % 2 = 1 then mulmod_ res base mod else res)

/-- `ChthollyTree::qpow_`: fast modular exponentiation, `res` initialised to
`1 % mod`, `base` normalised first.  The C++ loop runs only while `exp > 0`,
so a non-positive exponent contributes no iterations — `Int.toNat` renders
exactly that. -/
def qpow_ (base exp mod : Int) : Int :=
  qpowGo exp.toNat (norm_mod_ base mod) exp.toNat mod ((1 : Int).tmod mod)

/-- `ChthollyTree::add` on the iterator range `[split_(l), split_(r+1))`: in
the set ordered by `l`, after both splits that range holds exactly the nodes
whose key `l` lies in `[l, r+1)`; each such node's value gets `x` added. -/
def add (t : Tree) (l r x : Int) : Tree :=
  let t1 := split_ (split_ t (r + 1)) l
  ⟨t1.s.map (fun nd => if l ≤ nd.l ∧ nd.l < r + 1 then ⟨nd.l, nd.r, nd.v + x⟩ else nd), t1.n⟩

/-- `std::set::insert` on the list sorted by `l`: ordered insertion; a node
whose key `l` is already present is not inserted (set keys are unique). -/
def insertNode (nd : Node) : List Node → List Node
  | [] => [nd]
  | m :: tl =>
    if nd.l < m.l then nd :: m :: tl
    else if m.l < nd.l then m :: insertNode nd tl
    else m :: tl

/-- `ChthollyTree::assign`: `s_.erase(itl, itr)` removes the iterator range
`[split_(l), split_(r+1))` — the nodes with key in `[l, r+1)` — and
`s_.insert(Node{l, r, x})` adds the single replacement run. -/
def assign (t : Tree) (l r x : Int) : Tree :=
  let t1 := split_ (split_ t (r + 1)) l
  ⟨insertNode ⟨l, r, x⟩ (t1.s.filter (fun nd => !decide (l ≤ nd.l ∧ nd.l < r + 1))), t1.n⟩

/-- The comparison `std::ranges::sort` uses on `std::pair<ll, int>`:
lexicographic by (value, count). -/
def pairLE (p q : Int × Int) : Bool :=
  decide (p.1 < q.1) || (decide (p.1 = q.1) && decide (p.2 ≤ q.2))

/-- Accumulation loop of `ChthollyTree::kth` over the sorted `(value, count)`
pairs: `k -= cnt; if (k <= 0) return val;`, falling through to the sentinel
`-1`. -/
def kthGo : List (Int × Int) → Int → Int
  | [], _ => -1
  | (val, cnt) :: tl, k => if k - cnt ≤ 0 then val else kthGo tl (k - cnt)

/-- `ChthollyTree::kth`: split out `[l, r]`, collect `(value, length)` pairs
over the iterator range (the nodes with key in `[l, r+1)`), sort them
lexicographically, and accumulate counts.  Returns the possibly-split tree
together with the answer. -/
def kth (t : Tree) (l r k : Int) : Tree × Int :=
  let t1 := split_ (split_ t (r + 1)) l
  let vec := (t1.s.filter (fun nd => decide (l ≤ nd.l ∧ nd.l < r + 1))).map
      (fun nd => (nd.v, nd.r - nd.l + 1))
  (t1, kthGo (vec.mergeSort pairLE) k)

/-- Accumulation loop of `ChthollyTree::powsum`:
`ans = (ans + mulmod_((len) % y, qpow_(v, x, y), y)) % y` per node. -/
def powsumGo (x y : Int) : List Node → Int → Int
  | [], ans => ans
  | nd :: tl, ans =>
    powsumGo x y tl
      ((ans + mulmod_ ((nd.r - nd.l + 1).tmod y) (qpow_ nd.v x y) y).tmod y)

/-- `ChthollyTree::powsum`: split out `[l, r]` and accumulate
`(length % y) * (v^x % y) % y` over the iterator range.  Returns the
possibly-split tree together with the answer. -/
def powsum (t : Tree) (l r x y : Int) : Tree × Int :=
  let t1 := split_ (split_ t (r + 1)) l
  (t1, powsumGo x y (t1.s.filter (fun nd => decide (l ≤ nd.l ∧ nd.l < r + 1))) 0)

/-! ## Specification-side vocabulary

These definitions are not part of the C++ source; they express, over the
embedding, the quantities the specification talks about: the value stored at
an index, the exact-partition invariant, and abstract sequences of public
operations. -/

/-- The value the structure stores at index `i`: the value of the (first) node
whose run contains `i`, `0` when no node covers `i`. -/
def valueAt : List Node → Int → Int
  | [], _ => 0
  | nd :: tl, i => if nd.l ≤ i ∧ i ≤ nd.r then nd.v else valueAt tl i

/-- `chainB lo s hi`: the node list `s` tiles the index range `[lo, hi)`
exactly — each node starts where demanded, is non-empty, and the next node
starts at `r + 1`; the last node ends at `hi - 1`. -/
def chainB (lo : Int) : List Node → Int → Bool
  | [], hi => lo == hi
  | nd :: tl, hi => nd.l == lo && decide (nd.l ≤ nd.r) && chainB (nd.r + 1) tl hi

/-- The partition invariant: the node list tiles `[0, n)` exactly. -/
def Inv (t : Tree) : Prop :=
  chainB 0 t.s t.n = true

instance (t : Tree) : Decidable (Inv t) :=
  inferInstanceAs (Decidable (chainB 0 t.s t.n = true))

/-- A public operation with its arguments. -/
inductive Op where
  | add (l r x : Int)
  | assign (l r x : Int)
  | kth (l r k : Int)
  | powsum (l r x y : Int)

/-- Execute one public operation (queries keep their split side effects). -/
def exec (t : Tree) : Op → Tree
  | .add l r x => add t l r x
  | .assign l r x => assign t l r x
  | .kth l r k => (kth t l r k).1
  | .powsum l r x y => (powsum t l r x y).1

/-- Valid in-range arguments for an operation on a structure of size `n`. -/
def ValidOp (n : Int) : Op → Prop
  | .add l r _ => 0 ≤ l ∧ l ≤ r ∧ r < n
  | .assign l r _ => 0 ≤ l ∧ l ≤ r ∧ r < n
  | .kth l r _ => 0 ≤ l ∧ l ≤ r ∧ r < n
  | .powsum l r x y => 0 ≤ l ∧ l ≤ r ∧ r < n ∧ 0 ≤ x ∧ 0 < y

instance (n : Int) : (op : Op) → Decidable (ValidOp n op)
  | .add l r _ => inferInstanceAs (Decidable (0 ≤ l ∧ l ≤ r ∧ r < n))
  | .assign l r _ => inferInstanceAs (Decidable (0 ≤ l ∧ l ≤ r ∧ r < n))
  | .kth l r _ => inferInstanceAs (Decidable (0 ≤ l ∧ l ≤ r ∧ r < n))
  | .powsum l r x y =>
    inferInstanceAs (Decidable (0 ≤ l ∧ l ≤ r ∧ r < n ∧ 0 ≤ x ∧ 0 < y))

/-- Execute a sequence of public operations. -/
def execList (t : Tree) (ops : List Op) : Tree :=
  ops.foldl exec t

/-- `idxListGo l n`: the `n` consecutive indices `l, l+1, …, l+n-1`. -/
def idxListGo (l : Int) : Nat → List Int
  | 0 => []
  | n + 1 => l :: idxListGo (l + 1) n

/-- The list of indices `l, l+1, …, r` (empty when `r < l`). -/
def idxList (l r : Int) : List Int :=
  idxListGo l (r + 1 - l).toNat

/-- The sequence of stored values over the index range `[l, r]`. -/
def valsIn (t : Tree) (l r : Int) : List Int :=
  (idxList l r).map (valueAt t.s)

/-- The stored values over `[l, r]`, sorted ascending: position `k-1` is the
`k`-th smallest element of the multiset of values. -/
def sortedVals (t : Tree) (l r : Int) : List Int :=
  (valsIn t l r).mergeSort (fun a b => decide (a ≤ b))

/-- Largest value of the C++ `long long` (signed 64-bit) type. -/
def int64Max : Int := 9223372036854775807

/-- Mirrors `mulmodGo` while watching the one unguarded intermediate sum of
the C++ loop, `res += a`: returns `true` iff some such sum exceeds the
signed 64-bit range.  (The doubling step is guarded by construction:
`a - (mod - a)` and `a + a` stay below `mod` when `0 ≤ a < mod ≤ int64Max`.)
Fuel as in `mulmodGo`. -/
def mulmodGoOverflow : Nat → Int → Nat → Int → Int → Bool
  | 0, _, _, _, _ => false
  | fuel + 1, a, b, mod, res =>
    if b = 0 then false
    else
      (decide (b % 2 = 1) && decide (res + a > int64Max)) ||
      mulmodGoOverflow fuel (if a ≥ mod - a then a - (mod - a) else a + a)
        (b / 2) mod
        (if b % 2 = 1 then (if res + a ≥ mod then res + a - mod else res + a)
         else res)

/-- Whether evaluating `mulmod_ a b mod` makes some intermediate `res + a`
exceed the signed 64-bit range of the C++ operands. -/
def mulmodOverflows (a b mod : Int) : Bool :=
  mulmodGoOverflow (norm_mod_ b mod).toNat (norm_mod_ a mod)
    (norm_mod_ b mod).toNat mod 0

/-! ## Basic lemmas about `chainB`, `valueAt` and `splitGo` -/

theorem chainB_nil {lo hi : Int} : chainB lo [] hi = true ↔ lo = hi := by
  simp [chainB]

theorem chainB_cons {lo hi : Int} {nd : Node} {tl : List Node} :
    chainB lo (nd :: tl) hi = true ↔
      nd.l = lo ∧ nd.l ≤ nd.r ∧ chainB (nd.r + 1) tl hi = true := by
  simp [chainB, and_assoc]

theorem chainB_le {lo hi : Int} :
    ∀ {s : List Node}, chainB lo s hi = true → lo ≤ hi := by
  intro s
  induction s generalizing lo with
  | nil => intro h; exact le_of_eq (chainB_nil.mp h)
  | cons nd tl ih =>
    intro h
    obtain ⟨h1, h2, h3⟩ := chainB_cons.mp h
    have := ih h3
    omega

theorem chainB_mem_bounds {lo hi : Int} :
    ∀ {s : List Node}, chainB lo s hi = true →
      ∀ nd ∈ s, lo ≤ nd.l ∧ nd.l ≤ nd.r ∧ nd.r < hi := by
  intro s
  induction s generalizing lo with
  | nil => intro _ nd hnd; exact absurd hnd (List.not_mem_nil nd)
  | cons m tl ih =>
    intro h nd hnd
    obtain ⟨h1, h2, h3⟩ := chainB_cons.mp h
    rcases List.mem_cons.mp hnd with h4 | h4
    · subst h4
      have := chainB_le h3
      omega
    · have := ih h3 nd h4
      omega

theorem chainB_append {lo mid hi : Int} :
    ∀ {s₁ : List Node} {s₂ : List Node}, chainB lo s₁ mid = true →
      chainB mid s₂ hi = true → chainB lo (s₁ ++ s₂) hi = true := by
  intro s₁
  induction s₁ generalizing lo with
  | nil => intro s₂ h1 h2; rw [chainB_nil.mp h1]; exact h2
  | cons nd tl ih =>
    intro s₂ h1 h2
    obtain ⟨g1, g2, g3⟩ := chainB_cons.mp h1
    exact chainB_cons.mpr ⟨g1, g2, ih g3 h2⟩

theorem valueAt_nil (i : Int) : valueAt [] i = 0 := rfl

theorem valueAt_cons (nd : Node) (tl : List Node) (i : Int) :
    valueAt (nd :: tl) i =
      if nd.l ≤ i ∧ i ≤ nd.r then nd.v else valueAt tl i := rfl

theorem valueAt_append_not_covered {i : Int} :
    ∀ {A : List Node} (B : List Node),
      (∀ nd ∈ A, ¬(nd.l ≤ i ∧ i ≤ nd.r)) →
      valueAt (A ++ B) i = valueAt B i := by
  intro A
  induction A with
  | nil => intro B _; rfl
  | cons nd tl ih =>
    intro B h
    have hnd := h nd (List.mem_cons_self nd tl)
    rw [List.cons_append, valueAt_cons, if_neg hnd]
    exact ih B (fun m hm => h m (List.mem_cons_of_mem nd hm))

theorem valueAt_append_covered {i : Int} :
    ∀ {A : List Node} (B : List Node),
      (∃ nd ∈ A, nd.l ≤ i ∧ i ≤ nd.r) →
      valueAt (A ++ B) i = valueAt A i := by
  intro A
  induction A with
  | nil => intro B h; exact absurd h (by simp)
  | cons nd tl ih =>
    intro B h
    rw [List.cons_append, valueAt_cons, valueAt_cons]
    by_cases hc : nd.l ≤ i ∧ i ≤ nd.r
    · rw [if_pos hc, if_pos hc]
    · rw [if_neg hc, if_neg hc]
      apply ih
      rcases h with ⟨m, hm, hmc⟩
      rcases List.mem_cons.mp hm with h4 | h4
      · exact absurd (h4 ▸ hmc) hc
      · exact ⟨m, h4, hmc⟩

theorem chainB_not_covered {lo hi i : Int} {s : List Node}
    (h : chainB lo s hi = true) (hout : i < lo ∨ hi ≤ i) :
    ∀ nd ∈ s, ¬(nd.l ≤ i ∧ i ≤ nd.r) := by
  intro nd hnd
  have := chainB_mem_bounds h nd hnd
  omega

theorem chainB_covered {lo hi i : Int} :
    ∀ {s : List Node}, chainB lo s hi = true → lo ≤ i → i < hi →
      ∃ nd ∈ s, nd.l ≤ i ∧ i ≤ nd.r := by
  intro s
  induction s generalizing lo with
  | nil => intro h h1 h2; rw [chainB_nil.mp h] at h1; omega
  | cons nd tl ih =>
    intro h h1 h2
    obtain ⟨g1, g2, g3⟩ := chainB_cons.mp h
    by_cases hc : i ≤ nd.r
    · exact ⟨nd, List.mem_cons_self nd tl, by omega, hc⟩
    · obtain ⟨m, hm, hmc⟩ := ih g3 (by omega) h2
      exact ⟨m, List.mem_cons_of_mem nd hm, hmc⟩

theorem splitGo_valueAt (pos i : Int) :
    ∀ s : List Node, valueAt (splitGo pos s) i = valueAt s i := by
  intro s
  induction s with
  | nil => rfl
  | cons nd tl ih =>
    rw [splitGo]
    by_cases h1 : nd.l = pos
    · rw [if_pos h1]
    · rw [if_neg h1]
      by_cases h2 : nd.l < pos ∧ pos ≤ nd.r
      · rw [if_pos h2, valueAt_cons, valueAt_cons, valueAt_cons]
        dsimp only
        by_cases h3 : nd.l ≤ i ∧ i ≤ nd.r
        · by_cases h4 : i ≤ pos - 1
          · rw [if_pos ⟨h3.1, h4⟩, if_pos h3]
          · rw [if_neg (by omega), if_pos (by omega : pos ≤ i ∧ i ≤ nd.r),
              if_pos h3]
        · rw [if_neg (by omega), if_neg (by omega), if_neg h3]
      · rw [if_neg h2, valueAt_cons, valueAt_cons, ih]

theorem splitGo_chainB {pos lo hi : Int} :
    ∀ {s : List Node}, chainB lo s hi = true →
      chainB lo (splitGo pos s) hi = true := by
  intro s
  induction s generalizing lo with
  | nil => intro h; exact h
  | cons nd tl ih =>
    intro h
    obtain ⟨g1, g2, g3⟩ := chainB_cons.mp h
    rw [splitGo]
    by_cases h1 : nd.l = pos
    · rw [if_pos h1]; exact h
    · rw [if_neg h1]
      by_cases h2 : nd.l < pos ∧ pos ≤ nd.r
      · rw [if_pos h2]
        refine chainB_cons.mpr ⟨g1, by dsimp only; omega, ?_⟩
        refine chainB_cons.mpr ⟨by dsimp only; omega, by dsimp only; omega, ?_⟩
        simpa using g3
      · rw [if_neg h2]
        exact chainB_cons.mpr ⟨g1, g2, ih g3⟩

theorem splitGo_decomp {pos hi : Int} :
    ∀ {s : List Node} {lo : Int}, chainB lo s hi = true → lo ≤ pos → pos < hi →
      ∃ A B, splitGo pos s = A ++ B ∧
        chainB lo A pos = true ∧ chainB pos B hi = true := by
  intro s
  induction s with
  | nil =>
    intro lo h h1 h2
    rw [chainB_nil.mp h] at h1; omega
  | cons nd tl ih =>
    intro lo h h1 h2
    obtain ⟨g1, g2, g3⟩ := chainB_cons.mp h
    rw [splitGo]
    by_cases hc1 : nd.l = pos
    · refine ⟨[], nd :: tl, by rw [if_pos hc1]; rfl, chainB_nil.mpr (by omega), ?_⟩
      exact chainB_cons.mpr ⟨hc1, g2, g3⟩
    · rw [if_neg hc1]
      by_cases hc2 : nd.l < pos ∧ pos ≤ nd.r
      · rw [if_pos hc2]
        refine ⟨[⟨nd.l, pos - 1, nd.v⟩], ⟨pos, nd.r, nd.v⟩ :: tl, rfl, ?_, ?_⟩
        · exact chainB_cons.mpr ⟨g1, by dsimp only; omega,
            chainB_nil.mpr (by dsimp only; omega)⟩
        · refine chainB_cons.mpr ⟨rfl, by dsimp only; omega, ?_⟩
          simpa using g3
      · rw [if_neg hc2]
        obtain ⟨A, B, hAB, hA, hB⟩ := ih g3 (by omega) h2
        exact ⟨nd :: A, B, by rw [hAB]; rfl,
          chainB_cons.mpr ⟨g1, g2, hA⟩, hB⟩

theorem splitGo_append {pos hi : Int} :
    ∀ {A : List Node} {lo : Int} (B : List Node), chainB lo A hi = true →
      lo ≤ pos → pos < hi → splitGo pos (A ++ B) = splitGo pos A ++ B := by
  intro A
  induction A with
  | nil =>
    intro lo B h h1 h2
    rw [chainB_nil.mp h] at h1; omega
  | cons nd tl ih =>
    intro lo B h h1 h2
    obtain ⟨g1, g2, g3⟩ := chainB_cons.mp h
    rw [List.cons_append, splitGo, splitGo]
    by_cases hc1 : nd.l = pos
    · rw [if_pos hc1, if_pos hc1, List.cons_append]
    · rw [if_neg hc1, if_neg hc1]
      by_cases hc2 : nd.l < pos ∧ pos ≤ nd.r
      · rw [if_pos hc2, if_pos hc2, List.cons_append, List.cons_append]
      · rw [if_neg hc2, if_neg hc2, List.cons_append, ih B g3 (by omega) h2]

theorem splitGo_shape (pos : Int) :
    ∀ s : List Node,
      splitGo pos s = s ∨
      ∃ pre nd post, s = pre ++ nd :: post ∧ nd.l < pos ∧ pos ≤ nd.r ∧
        splitGo pos s =
          pre ++ ⟨nd.l, pos - 1, nd.v⟩ :: ⟨pos, nd.r, nd.v⟩ :: post := by
  intro s
  induction s with
  | nil => exact Or.inl rfl
  | cons nd tl ih =>
    rw [splitGo]
    by_cases hc1 : nd.l = pos
    · exact Or.inl (by rw [if_pos hc1])
    · rw [if_neg hc1]
      by_cases hc2 : nd.l < pos ∧ pos ≤ nd.r
      · exact Or.inr ⟨[], nd, tl, rfl, hc2.1, hc2.2, by rw [if_pos hc2]; rfl⟩
      · rw [if_neg hc2]
        rcases ih with h | ⟨pre, m, post, hs, hm1, hm2, hsp⟩
        · exact Or.inl (by rw [h])
        · exact Or.inr ⟨nd :: pre, m, post, by rw [hs]; rfl, hm1, hm2,
            by rw [hsp]; rfl⟩

/-! ## Lemmas about `split_` and the two-split range decomposition -/

theorem split_n (t : Tree) (pos : Int) : (split_ t pos).n = t.n := by
  unfold split_; split_ifs <;> rfl

theorem split_valueAt (t : Tree) (pos i : Int) :
    valueAt (split_ t pos).s i = valueAt t.s i := by
  unfold split_; split_ifs <;> simp [splitGo_valueAt]

theorem split_Inv {t : Tree} (pos : Int) (h : Inv t) : Inv (split_ t pos) := by
  unfold Inv split_ at *
  split_ifs
  · exact h
  · exact h
  · exact splitGo_chainB h

theorem split_decomp {t : Tree} {pos : Int} (h : Inv t) (h0 : 0 ≤ pos)
    (hn : pos ≤ t.n) :
    ∃ A B, (split_ t pos).s = A ++ B ∧
      chainB 0 A pos = true ∧ chainB pos B t.n = true := by
  unfold Inv split_ at *
  split_ifs with h1 h2
  · have : pos = 0 := by omega
    subst this
    exact ⟨[], t.s, rfl, chainB_nil.mpr rfl, h⟩
  · have : pos = t.n := by omega
    subst this
    exact ⟨t.s, [], by simp, h, chainB_nil.mpr rfl⟩
  · exact splitGo_decomp h h0 (by omega)

theorem rangeSplit_n (t : Tree) (l r : Int) :
    (split_ (split_ t (r + 1)) l).n = t.n := by
  rw [split_n, split_n]

theorem rangeSplit_valueAt (t : Tree) (l r i : Int) :
    valueAt (split_ (split_ t (r + 1)) l).s i = valueAt t.s i := by
  rw [split_valueAt, split_valueAt]

theorem rangeSplit_Inv {t : Tree} (l r : Int) (h : Inv t) :
    Inv (split_ (split_ t (r + 1)) l) :=
  split_Inv l (split_Inv (r + 1) h)

/-- After `split_(r+1)` then `split_(l)` on a valid range, the node list
decomposes into the zone before `l`, the middle zone tiling `[l, r]`, and the
zone after `r`. -/
theorem range_decomp {t : Tree} {l r : Int} (h : Inv t) (h0 : 0 ≤ l)
    (hlr : l ≤ r) (hr : r < t.n) :
    ∃ pre mid post, (split_ (split_ t (r + 1)) l).s = pre ++ (mid ++ post) ∧
      chainB 0 pre l = true ∧ chainB l mid (r + 1) = true ∧
      chainB (r + 1) post t.n = true := by
  obtain ⟨A, B, hAB, hA, hB⟩ := split_decomp h (show (0:Int) ≤ r + 1 by omega)
    (by omega)
  set t1 := split_ t (r + 1) with ht1
  have hn1 : t1.n = t.n := split_n t (r + 1)
  by_cases h1 : l ≤ 0
  · have hl0 : l = 0 := by omega
    have hid : split_ t1 l = t1 := by
      unfold split_
      rw [if_pos h1]
    rw [hid, hAB]
    subst hl0
    exact ⟨[], A, B, rfl, chainB_nil.mpr rfl, hA, hB⟩
  · have h2 : ¬ t1.n ≤ l := by omega
    have hsp : split_ t1 l = ⟨splitGo l t1.s, t1.n⟩ := by
      unfold split_
      rw [if_neg h1, if_neg h2]
    rw [hsp]
    dsimp only
    rw [hAB, splitGo_append B hA (by omega) (show l < r + 1 by omega)]
    obtain ⟨pre, mid, hPM, hPre, hMid⟩ :=
      splitGo_decomp hA (by omega) (show l < r + 1 by omega)
    rw [hPM, List.append_assoc]
    exact ⟨pre, mid, B, rfl, hPre, hMid, hB⟩

/-! ## Modular arithmetic: correctness of `norm_mod_`, `mulmod_`, `qpow_` -/

theorem tmod_lower_bound {x mod : Int} (h : 0 < mod) : -mod < x.tmod mod := by
  rcases x with n | m
  · calc -mod < 0 := by omega
    _ ≤ (Int.ofNat n).tmod mod := Int.tmod_nonneg mod (Int.ofNat_nonneg n)
  · rcases mod with k | k
    · have hred : (Int.negSucc m).tmod (Int.ofNat k) = -(((m + 1) % k : Nat) : Int) :=
        rfl
      rw [hred, Int.ofNat_eq_natCast] at *
      have hk : 0 < k := by exact_mod_cast h
      have := Nat.mod_lt (m + 1) hk
      omega
    · have := Int.negSucc_lt_zero k
      exact absurd h (by omega)

theorem norm_mod_eq_emod {x mod : Int} (h : 0 < mod) :
    norm_mod_ x mod = x % mod := by
  have hub : x.tmod mod < mod := Int.tmod_lt_of_pos x h
  have hlb : -mod < x.tmod mod := tmod_lower_bound h
  have hdef : x.tmod mod = x - mod * x.tdiv mod := Int.tmod_def x mod
  unfold norm_mod_
  by_cases hneg : x.tmod mod < 0
  · rw [if_pos hneg]
    have h1 : x.tmod mod + mod = x + mod * (1 - x.tdiv mod) := by
      rw [hdef]; ring
    calc x.tmod mod + mod
        = (x.tmod mod + mod) % mod :=
          (Int.emod_eq_of_lt (by omega) (by omega)).symm
      _ = (x + mod * (1 - x.tdiv mod)) % mod := by rw [h1]
      _ = x % mod := Int.add_mul_emod_self_left x mod (1 - x.tdiv mod)
  · rw [if_neg hneg]
    have h1 : x.tmod mod = x + mod * (-(x.tdiv mod)) := by
      rw [hdef]; ring
    calc x.tmod mod
        = (x.tmod mod) % mod := (Int.emod_eq_of_lt (by omega) hub).symm
      _ = (x + mod * (-(x.tdiv mod))) % mod := by rw [h1]
      _ = x % mod := Int.add_mul_emod_self_left x mod (-(x.tdiv mod))

theorem emod_modEq_self (a n : Int) : a % n ≡ a [ZMOD n] :=
  Int.emod_emod_of_dvd a dvd_rfl

theorem mul_modEq_zero (mod e : Int) : mod * e ≡ 0 [ZMOD mod] := by
  unfold Int.ModEq
  rw [Int.mul_emod_right]
  simp

theorem mulmodGo_correct {mod : Int} (hmod : 0 < mod) :
    ∀ (fuel : Nat) (b : Nat), b ≤ fuel → ∀ {a res : Int},
      0 ≤ a → a < mod → 0 ≤ res → res < mod →
      mulmodGo fuel a b mod res = (res + a * b) % mod := by
  intro fuel
  induction fuel with
  | zero =>
    intro b hb a res ha1 ha2 hr1 hr2
    have hb0 : b = 0 := by omega
    subst hb0
    show res = (res + a * ((0 : Nat) : Int)) % mod
    rw [Nat.cast_zero, mul_zero, add_zero, Int.emod_eq_of_lt hr1 hr2]
  | succ fuel ih =>
    intro b hb a res ha1 ha2 hr1 hr2
    show (if b = 0 then res else _) = _
    by_cases hb0 : b = 0
    · rw [if_pos hb0]
      subst hb0
      rw [Nat.cast_zero, mul_zero, add_zero, Int.emod_eq_of_lt hr1 hr2]
    · rw [if_neg hb0]
      set c : Int := ((b % 2 : Nat) : Int) with hc
      set q : Int := ((b / 2 : Nat) : Int) with hq
      set a2 := if a ≥ mod - a then a - (mod - a) else a + a with ha2d
      set r2 := if b % 2 = 1 then
          (if res + a ≥ mod then res + a - mod else res + a) else res with hr2d
      have hba : 0 ≤ a2 ∧ a2 < mod := by
        rw [ha2d]; split_ifs <;> omega
      have hbr : 0 ≤ r2 ∧ r2 < mod := by
        rw [hr2d]; split_ifs <;> omega
      have hcv : c = 0 ∨ c = 1 := by
        rw [hc]
        rcases Nat.mod_two_eq_zero_or_one b with h | h <;> rw [h] <;> simp
      have hmoda : ∃ e : Int, a2 = 2 * a - mod * e := by
        rw [ha2d]; split_ifs
        · exact ⟨1, by omega⟩
        · exact ⟨0, by omega⟩
      have hmodr : ∃ d : Int, r2 = res + a * c - mod * d := by
        rw [hr2d]
        split_ifs with h1 h2
        · have : c = 1 := by rw [hc, h1]; simp
          exact ⟨1, by rw [this]; omega⟩
        · have : c = 1 := by rw [hc, h1]; simp
          exact ⟨0, by rw [this]; omega⟩
        · have : c = 0 := by
            rw [hc]
            have : b % 2 = 0 := by omega
            rw [this]; simp
          exact ⟨0, by rw [this]; omega⟩
      obtain ⟨e, he⟩ := hmoda
      obtain ⟨d, hd⟩ := hmodr
      rw [ih (b / 2) (by omega) hba.1 hba.2 hbr.1 hbr.2]
      have ha2M : a2 ≡ 2 * a [ZMOD mod] := by
        rw [he]
        calc 2 * a - mod * e ≡ 2 * a - 0 [ZMOD mod] :=
              (Int.ModEq.refl (2 * a)).sub (mul_modEq_zero mod e)
          _ = 2 * a := by ring
      have hr2M : r2 ≡ res + a * c [ZMOD mod] := by
        rw [hd]
        calc res + a * c - mod * d ≡ res + a * c - 0 [ZMOD mod] :=
              (Int.ModEq.refl (res + a * c)).sub (mul_modEq_zero mod d)
          _ = res + a * c := by ring
      have hbcast : (b : Int) = 2 * q + c := by
        rw [hq, hc]
        push_cast
        omega
      have hfin : r2 + a2 * q ≡ res + a * (b : Int) [ZMOD mod] := by
        calc r2 + a2 * q
            ≡ (res + a * c) + (2 * a) * q [ZMOD mod] :=
              hr2M.add (ha2M.mul (Int.ModEq.refl q))
          _ = res + a * (2 * q + c) := by ring
          _ = res + a * (b : Int) := by rw [hbcast]
      exact hfin

theorem mulmod_correct {a b mod : Int} (h : 0 < mod) :
    mulmod_ a b mod = (a * b) % mod := by
  unfold mulmod_
  rw [norm_mod_eq_emod h, norm_mod_eq_emod h]
  have hb0 : 0 ≤ b % mod := Int.emod_nonneg b (by omega)
  have hblt : b % mod < mod := Int.emod_lt_of_pos b h
  have ha0 : 0 ≤ a % mod := Int.emod_nonneg a (by omega)
  have halt : a % mod < mod := Int.emod_lt_of_pos a h
  rw [mulmodGo_correct h _ _ le_rfl ha0 halt le_rfl h]
  rw [Int.toNat_of_nonneg hb0, zero_add]
  have : a % mod * (b % mod) ≡ a * b [ZMOD mod] :=
    (emod_modEq_self a mod).mul (emod_modEq_self b mod)
  exact this

theorem mulmod_range {a b mod : Int} (h : 0 < mod) :
    0 ≤ mulmod_ a b mod ∧ mulmod_ a b mod < mod := by
  rw [mulmod_correct h]
  exact ⟨Int.emod_nonneg _ (by omega), Int.emod_lt_of_pos _ h⟩

theorem qpowGo_correct {mod : Int} (hmod : 0 < mod) :
    ∀ (fuel : Nat) (e : Nat), e ≤ fuel → ∀ {base res : Int},
      0 ≤ res → res < mod →
      qpowGo fuel base e mod res = (res * base ^ e) % mod := by
  intro fuel
  induction fuel with
  | zero =>
    intro e he base res hr1 hr2
    have he0 : e = 0 := by omega
    subst he0
    show res = (res * base ^ 0) % mod
    rw [pow_zero, mul_one, Int.emod_eq_of_lt hr1 hr2]
  | succ fuel ih =>
    intro e he base res hr1 hr2
    show (if e = 0 then res else _) = _
    by_cases he0 : e = 0
    · rw [if_pos he0]
      subst he0
      rw [pow_zero, mul_one, Int.emod_eq_of_lt hr1 hr2]
    · rw [if_neg he0]
      set r2 := if e % 2 = 1 then mulmod_ res base mod else res with hr2d
      have hbr : 0 ≤ r2 ∧ r2 < mod := by
        rw [hr2d]
        split_ifs
        · exact mulmod_range hmod
        · exact ⟨hr1, hr2⟩
      rw [ih (e / 2) (by omega) hbr.1 hbr.2]
      have hBM : mulmod_ base base mod ≡ base * base [ZMOD mod] := by
        rw [mulmod_correct hmod]
        exact emod_modEq_self (base * base) mod
      have hr2M : r2 ≡ res * base ^ (e % 2) [ZMOD mod] := by
        rw [hr2d]
        split_ifs with h1
        · rw [h1, mulmod_correct hmod, pow_one]
          exact emod_modEq_self (res * base) mod
        · have h2 : e % 2 = 0 := by omega
          rw [h2, pow_zero, mul_one]
      have hsplit : base ^ e = base ^ (e % 2) * (base * base) ^ (e / 2) := by
        have h3 : e = e % 2 + 2 * (e / 2) := by omega
        calc base ^ e = base ^ (e % 2 + 2 * (e / 2)) := by rw [← h3]
          _ = base ^ (e % 2) * base ^ (2 * (e / 2)) := pow_add base _ _
          _ = base ^ (e % 2) * (base ^ 2) ^ (e / 2) := by rw [pow_mul]
          _ = base ^ (e % 2) * (base * base) ^ (e / 2) := by rw [pow_two]
      have hfin : r2 * (mulmod_ base base mod) ^ (e / 2) ≡
          res * base ^ e [ZMOD mod] := by
        calc r2 * (mulmod_ base base mod) ^ (e / 2)
            ≡ (res * base ^ (e % 2)) * (base * base) ^ (e / 2) [ZMOD mod] :=
              hr2M.mul (hBM.pow (e / 2))
          _ = res * (base ^ (e % 2) * (base * base) ^ (e / 2)) := by ring
          _ = res * base ^ e := by rw [← hsplit]
      exact hfin

theorem qpow_correct {base exp mod : Int} (hmod : 0 < mod) :
    qpow_ base exp mod = (base ^ exp.toNat) % mod := by
  unfold qpow_
  have h1 : (1 : Int).tmod mod = 1 % mod :=
    Int.tmod_eq_emod (by norm_num) (by omega)
  rw [h1, qpowGo_correct hmod _ _ le_rfl (Int.emod_nonneg 1 (by omega))
    (Int.emod_lt_of_pos 1 hmod), norm_mod_eq_emod hmod]
  have hfin : 1 % mod * (base % mod) ^ exp.toNat ≡
      1 * base ^ exp.toNat [ZMOD mod] :=
    (emod_modEq_self 1 mod).mul ((emod_modEq_self base mod).pow exp.toNat)
  calc (1 % mod * (base % mod) ^ exp.toNat) % mod
      = (1 * base ^ exp.toNat) % mod := hfin
    _ = base ^ exp.toNat % mod := by rw [one_mul]

theorem mulmodGoOverflow_false {mod : Int} (hmod : 0 < mod)
    (hsmall : mod ≤ 4611686018427387904) :
    ∀ (fuel : Nat) (b : Nat) {a res : Int},
      0 ≤ a → a < mod → 0 ≤ res → res < mod →
      mulmodGoOverflow fuel a b mod res = false := by
  intro fuel
  induction fuel with
  | zero => intro b a res _ _ _ _; rfl
  | succ fuel ih =>
    intro b a res ha1 ha2 hr1 hr2
    show (if b = 0 then false else _) = false
    by_cases hb0 : b = 0
    · rw [if_pos hb0]
    · rw [if_neg hb0]
      have hnof : decide (res + a > int64Max) = false := by
        apply decide_eq_false
        unfold int64Max
        omega
      rw [hnof, Bool.and_false, Bool.false_or]
      have hba : 0 ≤ (if a ≥ mod - a then a - (mod - a) else a + a) ∧
          (if a ≥ mod - a then a - (mod - a) else a + a) < mod := by
        split_ifs <;> omega
      have hbr : 0 ≤ (if b % 2 = 1 then
            (if res + a ≥ mod then res + a - mod else res + a) else res) ∧
          (if b % 2 = 1 then
            (if res + a ≥ mod then res + a - mod else res + a) else res) < mod := by
        split_ifs <;> omega
      exact ih (b / 2) hba.1 hba.2 hbr.1 hbr.2

theorem mulmodOverflows_false {a b mod : Int} (hmod : 0 < mod)
    (hsmall : mod ≤ 2 ^ 62) : mulmodOverflows a b mod = false := by
  unfold mulmodOverflows
  have h62 : (2 : Int) ^ 62 = 4611686018427387904 := by norm_num
  rw [h62] at hsmall
  rw [norm_mod_eq_emod hmod, norm_mod_eq_emod hmod]
  exact mulmodGoOverflow_false hmod (by omega) _ _
    (Int.emod_nonneg a (by omega)) (Int.emod_lt_of_pos a hmod) le_rfl hmod

/-! ## `build` establishes the invariant -/

theorem buildGo_chainB (a : List Int) :
    ∀ i : Int, chainB i (buildGo i a) (i + (a.length : Int)) = true := by
  induction a with
  | nil =>
    intro i
    apply chainB_nil.mpr
    simp
  | cons v tl ih =>
    intro i
    refine chainB_cons.mpr ⟨rfl, le_refl i, ?_⟩
    have := ih (i + 1)
    have hlen : i + 1 + (tl.length : Int) = i + ((v :: tl).length : Int) := by
      simp
      omega
    rw [hlen] at this
    exact this

theorem build_Inv (a : List Int) : Inv (build a) := by
  unfold Inv build
  have := buildGo_chainB a 0
  simpa using this

/-! ## Zone extraction: filtering and mapping over the three zones -/

theorem filter_span {l r : Int} {pre mid post : List Node}
    (hPre : chainB 0 pre l = true) (hMid : chainB l mid (r + 1) = true)
    (hPost : chainB (r + 1) post t_n = true) :
    (pre ++ (mid ++ post)).filter
      (fun nd => decide (l ≤ nd.l ∧ nd.l < r + 1)) = mid := by
  rw [List.filter_append, List.filter_append]
  have h1 : pre.filter (fun nd => decide (l ≤ nd.l ∧ nd.l < r + 1)) = [] := by
    apply List.filter_eq_nil_iff.mpr
    intro nd hnd
    have := chainB_mem_bounds hPre nd hnd
    simp only [decide_eq_true_eq]
    omega
  have h2 : mid.filter (fun nd => decide (l ≤ nd.l ∧ nd.l < r + 1)) = mid := by
    apply List.filter_eq_self.mpr
    intro nd hnd
    have := chainB_mem_bounds hMid nd hnd
    simp only [decide_eq_true_eq]
    omega
  have h3 : post.filter (fun nd => decide (l ≤ nd.l ∧ nd.l < r + 1)) = [] := by
    apply List.filter_eq_nil_iff.mpr
    intro nd hnd
    have := chainB_mem_bounds hPost nd hnd
    simp only [decide_eq_true_eq]
    omega
  rw [h1, h2, h3]
  simp

theorem filter_out_span {l r : Int} {pre mid post : List Node}
    (hPre : chainB 0 pre l = true) (hMid : chainB l mid (r + 1) = true)
    (hPost : chainB (r + 1) post t_n = true) :
    (pre ++ (mid ++ post)).filter
      (fun nd => !decide (l ≤ nd.l ∧ nd.l < r + 1)) = pre ++ post := by
  rw [List.filter_append, List.filter_append]
  have h1 : pre.filter (fun nd => !decide (l ≤ nd.l ∧ nd.l < r + 1)) = pre := by
    apply List.filter_eq_self.mpr
    intro nd hnd
    have := chainB_mem_bounds hPre nd hnd
    simp only [Bool.not_eq_true', decide_eq_false_iff_not]
    omega
  have h2 : mid.filter (fun nd => !decide (l ≤ nd.l ∧ nd.l < r + 1)) = [] := by
    apply List.filter_eq_nil_iff.mpr
    intro nd hnd
    have := chainB_mem_bounds hMid nd hnd
    simp only [Bool.not_eq_true', decide_eq_false_iff_not, not_not]
    omega
  have h3 : post.filter (fun nd => !decide (l ≤ nd.l ∧ nd.l < r + 1)) = post := by
    apply List.filter_eq_self.mpr
    intro nd hnd
    have := chainB_mem_bounds hPost nd hnd
    simp only [Bool.not_eq_true', decide_eq_false_iff_not]
    omega
  rw [h1, h2, h3]
  simp

theorem map_span {l r x : Int} {pre mid post : List Node}
    (hPre : chainB 0 pre l = true) (hMid : chainB l mid (r + 1) = true)
    (hPost : chainB (r + 1) post t_n = true) :
    (pre ++ (mid ++ post)).map
      (fun nd => if l ≤ nd.l ∧ nd.l < r + 1 then
        (⟨nd.l, nd.r, nd.v + x⟩ : Node) else nd) =
      pre ++ ((mid.map (fun nd => (⟨nd.l, nd.r, nd.v + x⟩ : Node))) ++ post) := by
  rw [List.map_append, List.map_append]
  have h1 : pre.map (fun nd => if l ≤ nd.l ∧ nd.l < r + 1 then
      (⟨nd.l, nd.r, nd.v + x⟩ : Node) else nd) = pre := by
    conv_rhs => rw [← List.map_id pre]
    apply List.map_congr_left
    intro nd hnd
    have := chainB_mem_bounds hPre nd hnd
    rw [if_neg (by omega)]
    rfl
  have h2 : mid.map (fun nd => if l ≤ nd.l ∧ nd.l < r + 1 then
      (⟨nd.l, nd.r, nd.v + x⟩ : Node) else nd) =
      mid.map (fun nd => (⟨nd.l, nd.r, nd.v + x⟩ : Node)) := by
    apply List.map_congr_left
    intro nd hnd
    have := chainB_mem_bounds hMid nd hnd
    rw [if_pos (by omega)]
  have h3 : post.map (fun nd => if l ≤ nd.l ∧ nd.l < r + 1 then
      (⟨nd.l, nd.r, nd.v + x⟩ : Node) else nd) = post := by
    conv_rhs => rw [← List.map_id post]
    apply List.map_congr_left
    intro nd hnd
    have := chainB_mem_bounds hPost nd hnd
    rw [if_neg (by omega)]
    rfl
  rw [h1, h2, h3]

theorem chainB_map_addv {x lo hi : Int} :
    ∀ {mid : List Node},
      chainB lo mid hi = true →
      chainB lo (mid.map (fun nd => (⟨nd.l, nd.r, nd.v + x⟩ : Node))) hi = true := by
  intro mid
  induction mid generalizing lo with
  | nil => intro h; exact h
  | cons nd tl ih =>
    intro h
    obtain ⟨g1, g2, g3⟩ := chainB_cons.mp h
    exact chainB_cons.mpr ⟨g1, g2, ih g3⟩

/-! ## `valueAt` over zones -/

theorem valueAt_zero_of_not_covered {i : Int} :
    ∀ {s : List Node}, (∀ nd ∈ s, ¬(nd.l ≤ i ∧ i ≤ nd.r)) → valueAt s i = 0 := by
  intro s
  induction s with
  | nil => intro _; rfl
  | cons nd tl ih =>
    intro h
    rw [valueAt_cons, if_neg (h nd (List.mem_cons_self nd tl))]
    exact ih (fun m hm => h m (List.mem_cons_of_mem nd hm))

theorem valueAt_append_right_not_covered {i : Int} :
    ∀ (A : List Node) {B : List Node},
      (∀ nd ∈ B, ¬(nd.l ≤ i ∧ i ≤ nd.r)) →
      valueAt (A ++ B) i = valueAt A i := by
  intro A
  induction A with
  | nil => intro B h; exact valueAt_zero_of_not_covered h
  | cons nd tl ih =>
    intro B h
    rw [List.cons_append, valueAt_cons, valueAt_cons]
    by_cases hc : nd.l ≤ i ∧ i ≤ nd.r
    · rw [if_pos hc, if_pos hc]
    · rw [if_neg hc, if_neg hc]
      exact ih h

theorem valueAt_map_addv {x i : Int} :
    ∀ {mid : List Node},
      (∃ nd ∈ mid, nd.l ≤ i ∧ i ≤ nd.r) →
      valueAt (mid.map (fun nd => (⟨nd.l, nd.r, nd.v + x⟩ : Node))) i =
        valueAt mid i + x := by
  intro mid
  induction mid with
  | nil => intro h; exact absurd h (by simp)
  | cons nd tl ih =>
    intro h
    rw [List.map_cons, valueAt_cons, valueAt_cons]
    dsimp only
    by_cases hc : nd.l ≤ i ∧ i ≤ nd.r
    · rw [if_pos hc, if_pos hc]
    · rw [if_neg hc, if_neg hc]
      apply ih
      rcases h with ⟨m, hm, hmc⟩
      rcases List.mem_cons.mp hm with h4 | h4
      · exact absurd (h4 ▸ hmc) hc
      · exact ⟨m, h4, hmc⟩

theorem map_addv_not_covered {x i : Int} {mid : List Node}
    (h : ∀ nd ∈ mid, ¬(nd.l ≤ i ∧ i ≤ nd.r)) :
    ∀ nd ∈ mid.map (fun nd => (⟨nd.l, nd.r, nd.v + x⟩ : Node)),
      ¬(nd.l ≤ i ∧ i ≤ nd.r) := by
  intro nd hnd
  rw [List.mem_map] at hnd
  obtain ⟨m, hm, rfl⟩ := hnd
  exact h m hm

/-! ## Semantics of `add` -/

theorem add_n (t : Tree) (l r x : Int) : (add t l r x).n = t.n :=
  rangeSplit_n t l r

theorem add_decomp {t : Tree} {l r : Int} (x : Int) (h : Inv t) (h0 : 0 ≤ l)
    (hlr : l ≤ r) (hr : r < t.n) :
    ∃ pre mid post, (split_ (split_ t (r + 1)) l).s = pre ++ (mid ++ post) ∧
      chainB 0 pre l = true ∧ chainB l mid (r + 1) = true ∧
      chainB (r + 1) post t.n = true ∧
      (add t l r x).s =
        pre ++ ((mid.map fun nd => (⟨nd.l, nd.r, nd.v + x⟩ : Node)) ++ post) := by
  obtain ⟨pre, mid, post, hdec, hPre, hMid, hPost⟩ := range_decomp h h0 hlr hr
  refine ⟨pre, mid, post, hdec, hPre, hMid, hPost, ?_⟩
  show (split_ (split_ t (r + 1)) l).s.map _ = _
  rw [hdec]
  exact map_span hPre hMid hPost

theorem add_valueAt_in {t : Tree} {l r x i : Int} (h : Inv t) (h0 : 0 ≤ l)
    (hlr : l ≤ r) (hr : r < t.n) (hi1 : l ≤ i) (hi2 : i ≤ r) :
    valueAt (add t l r x).s i = valueAt t.s i + x := by
  obtain ⟨pre, mid, post, hdec, hPre, hMid, hPost, hadd⟩ :=
    add_decomp x h h0 hlr hr
  have hcov : ∃ nd ∈ mid, nd.l ≤ i ∧ i ≤ nd.r :=
    chainB_covered hMid hi1 (by omega)
  have hpre : ∀ nd ∈ pre, ¬(nd.l ≤ i ∧ i ≤ nd.r) :=
    chainB_not_covered hPre (Or.inr hi1)
  have hpost : ∀ nd ∈ post, ¬(nd.l ≤ i ∧ i ≤ nd.r) :=
    chainB_not_covered hPost (Or.inl (by omega))
  have h1 : valueAt (add t l r x).s i = valueAt mid i + x := by
    rw [hadd, valueAt_append_not_covered _ hpre,
      valueAt_append_right_not_covered _ hpost, valueAt_map_addv hcov]
  have h2 : valueAt t.s i = valueAt mid i := by
    rw [← rangeSplit_valueAt t l r i, hdec,
      valueAt_append_not_covered _ hpre,
      valueAt_append_right_not_covered _ hpost]
  rw [h1, h2]

theorem add_valueAt_out {t : Tree} {l r x i : Int} (h : Inv t) (h0 : 0 ≤ l)
    (hlr : l ≤ r) (hr : r < t.n) (hi : i < l ∨ r < i) :
    valueAt (add t l r x).s i = valueAt t.s i := by
  obtain ⟨pre, mid, post, hdec, hPre, hMid, hPost, hadd⟩ :=
    add_decomp x h h0 hlr hr
  have hmid : ∀ nd ∈ mid, ¬(nd.l ≤ i ∧ i ≤ nd.r) :=
    chainB_not_covered hMid (by omega)
  have hmid2 := map_addv_not_covered (x := x) hmid
  rcases hi with hi | hi
  · have hB : ∀ nd ∈ (mid.map fun nd => (⟨nd.l, nd.r, nd.v + x⟩ : Node)) ++ post,
        ¬(nd.l ≤ i ∧ i ≤ nd.r) := by
      intro nd hnd
      rcases List.mem_append.mp hnd with hnd | hnd
      · exact hmid2 nd hnd
      · exact chainB_not_covered hPost (by omega) nd hnd
    have hB2 : ∀ nd ∈ mid ++ post, ¬(nd.l ≤ i ∧ i ≤ nd.r) := by
      intro nd hnd
      rcases List.mem_append.mp hnd with hnd | hnd
      · exact hmid nd hnd
      · exact chainB_not_covered hPost (by omega) nd hnd
    rw [hadd, valueAt_append_right_not_covered _ hB,
      ← rangeSplit_valueAt t l r i, hdec,
      valueAt_append_right_not_covered _ hB2]
  · have hpre : ∀ nd ∈ pre, ¬(nd.l ≤ i ∧ i ≤ nd.r) :=
      chainB_not_covered hPre (by omega)
    rw [hadd, valueAt_append_not_covered _ hpre,
      valueAt_append_not_covered _ hmid2,
      ← rangeSplit_valueAt t l r i, hdec,
      valueAt_append_not_covered _ hpre,
      valueAt_append_not_covered _ hmid]

theorem add_Inv {t : Tree} {l r : Int} (x : Int) (h : Inv t) (h0 : 0 ≤ l)
    (hlr : l ≤ r) (hr : r < t.n) : Inv (add t l r x) := by
  obtain ⟨pre, mid, post, hdec, hPre, hMid, hPost, hadd⟩ :=
    add_decomp x h h0 hlr hr
  unfold Inv
  rw [add_n, hadd]
  exact chainB_append hPre (chainB_append (chainB_map_addv hMid) hPost)

/-! ## Semantics of `assign` -/

theorem assign_n (t : Tree) (l r x : Int) : (assign t l r x).n = t.n :=
  rangeSplit_n t l r

theorem insertNode_middle {nd : Node} :
    ∀ {pre post : List Node},
      (∀ m ∈ pre, m.l < nd.l) → (∀ m ∈ post, nd.l < m.l) →
      insertNode nd (pre ++ post) = pre ++ (nd :: post) := by
  intro pre
  induction pre with
  | nil =>
    intro post h1 h2
    cases post with
    | nil => rfl
    | cons m tl =>
      show insertNode nd (m :: tl) = nd :: m :: tl
      unfold insertNode
      rw [if_pos (h2 m (List.mem_cons_self m tl))]
  | cons m tl ih =>
    intro post h1 h2
    show insertNode nd (m :: (tl ++ post)) = m :: (tl ++ (nd :: post))
    unfold insertNode
    have hm : m.l < nd.l := h1 m (List.mem_cons_self m tl)
    rw [if_neg (by omega), if_pos hm,
      ih (fun q hq => h1 q (List.mem_cons_of_mem m hq)) h2]

theorem assign_decomp {t : Tree} {l r : Int} (x : Int) (h : Inv t) (h0 : 0 ≤ l)
    (hlr : l ≤ r) (hr : r < t.n) :
    ∃ pre mid post, (split_ (split_ t (r + 1)) l).s = pre ++ (mid ++ post) ∧
      chainB 0 pre l = true ∧ chainB l mid (r + 1) = true ∧
      chainB (r + 1) post t.n = true ∧
      (assign t l r x).s = pre ++ ((⟨l, r, x⟩ : Node) :: post) := by
  obtain ⟨pre, mid, post, hdec, hPre, hMid, hPost⟩ := range_decomp h h0 hlr hr
  refine ⟨pre, mid, post, hdec, hPre, hMid, hPost, ?_⟩
  show insertNode _ ((split_ (split_ t (r + 1)) l).s.filter _) = _
  rw [hdec, filter_out_span hPre hMid hPost]
  apply insertNode_middle
  · intro m hm
    have := chainB_mem_bounds hPre m hm
    dsimp only
    omega
  · intro m hm
    have := chainB_mem_bounds hPost m hm
    dsimp only
    omega

theorem assign_valueAt_in {t : Tree} {l r x i : Int} (h : Inv t) (h0 : 0 ≤ l)
    (hlr : l ≤ r) (hr : r < t.n) (hi1 : l ≤ i) (hi2 : i ≤ r) :
    valueAt (assign t l r x).s i = x := by
  obtain ⟨pre, mid, post, hdec, hPre, hMid, hPost, hass⟩ :=
    assign_decomp x h h0 hlr hr
  have hpre : ∀ nd ∈ pre, ¬(nd.l ≤ i ∧ i ≤ nd.r) :=
    chainB_not_covered hPre (Or.inr hi1)
  rw [hass, valueAt_append_not_covered _ hpre, valueAt_cons]
  rw [if_pos (by dsimp only; omega)]

theorem assign_valueAt_out {t : Tree} {l r x i : Int} (h : Inv t) (h0 : 0 ≤ l)
    (hlr : l ≤ r) (hr : r < t.n) (hi : i < l ∨ r < i) :
    valueAt (assign t l r x).s i = valueAt t.s i := by
  obtain ⟨pre, mid, post, hdec, hPre, hMid, hPost, hass⟩ :=
    assign_decomp x h h0 hlr hr
  have hmid : ∀ nd ∈ mid, ¬(nd.l ≤ i ∧ i ≤ nd.r) :=
    chainB_not_covered hMid (by omega)
  have hnode : ¬((⟨l, r, x⟩ : Node).l ≤ i ∧ i ≤ (⟨l, r, x⟩ : Node).r) := by
    dsimp only
    omega
  rcases hi with hi | hi
  · have hB : ∀ nd ∈ (⟨l, r, x⟩ : Node) :: post, ¬(nd.l ≤ i ∧ i ≤ nd.r) := by
      intro nd hnd
      rcases List.mem_cons.mp hnd with hnd | hnd
      · rw [hnd]; exact hnode
      · exact chainB_not_covered hPost (by omega) nd hnd
    have hB2 : ∀ nd ∈ mid ++ post, ¬(nd.l ≤ i ∧ i ≤ nd.r) := by
      intro nd hnd
      rcases List.mem_append.mp hnd with hnd | hnd
      · exact hmid nd hnd
      · exact chainB_not_covered hPost (by omega) nd hnd
    rw [hass, valueAt_append_right_not_covered _ hB,
      ← rangeSplit_valueAt t l r i, hdec,
      valueAt_append_right_not_covered _ hB2]
  · have hpre : ∀ nd ∈ pre, ¬(nd.l ≤ i ∧ i ≤ nd.r) :=
      chainB_not_covered hPre (by omega)
    rw [hass, valueAt_append_not_covered _ hpre, valueAt_cons, if_neg hnode,
      ← rangeSplit_valueAt t l r i, hdec,
      valueAt_append_not_covered _ hpre,
      valueAt_append_not_covered _ hmid]

theorem assign_Inv {t : Tree} {l r : Int} (x : Int) (h : Inv t) (h0 : 0 ≤ l)
    (hlr : l ≤ r) (hr : r < t.n) : Inv (assign t l r x) := by
  obtain ⟨pre, mid, post, hdec, hPre, hMid, hPost, hass⟩ :=
    assign_decomp x h h0 hlr hr
  unfold Inv
  rw [assign_n, hass]
  refine chainB_append hPre (chainB_cons.mpr ⟨rfl, ?_, ?_⟩)
  · dsimp only
    omega
  · dsimp only
    exact hPost

/-! ## Every public operation preserves the invariant -/

theorem exec_Inv {t : Tree} {op : Op} (h : Inv t) (hv : ValidOp t.n op) :
    Inv (exec t op) ∧ (exec t op).n = t.n := by
  cases op with
  | add l r x =>
    obtain ⟨h0, hlr, hr⟩ := hv
    exact ⟨add_Inv x h h0 hlr hr, add_n t l r x⟩
  | assign l r x =>
    obtain ⟨h0, hlr, hr⟩ := hv
    exact ⟨assign_Inv x h h0 hlr hr, assign_n t l r x⟩
  | kth l r k =>
    exact ⟨rangeSplit_Inv l r h, rangeSplit_n t l r⟩
  | powsum l r x y =>
    exact ⟨rangeSplit_Inv l r h, rangeSplit_n t l r⟩

theorem execList_Inv :
    ∀ (ops : List Op) {t : Tree}, Inv t → (∀ op ∈ ops, ValidOp t.n op) →
      Inv (execList t ops) ∧ (execList t ops).n = t.n := by
  intro ops
  induction ops with
  | nil => intro t h _; exact ⟨h, rfl⟩
  | cons op tl ih =>
    intro t h hv
    have h1 := exec_Inv h (hv op (List.mem_cons_self op tl))
    have h2 := ih h1.1 (fun q hq => h1.2 ▸ hv q (List.mem_cons_of_mem op hq))
    exact ⟨h2.1, h2.2.trans h1.2⟩

/-! ## Explicit forms of the partition invariant -/

theorem chainB_chain_adjacent {lo hi : Int} :
    ∀ {s : List Node}, chainB lo s hi = true →
      List.Chain' (fun p q => q.l = p.r + 1) s := by
  intro s
  induction s generalizing lo with
  | nil => intro _; exact List.chain'_nil
  | cons nd tl ih =>
    intro h
    obtain ⟨g1, g2, g3⟩ := chainB_cons.mp h
    rw [List.chain'_cons']
    constructor
    · intro y hy
      cases tl with
      | nil => simp at hy
      | cons m tl2 =>
        obtain ⟨k1, _, _⟩ := chainB_cons.mp g3
        simp only [List.head?_cons, Option.mem_def, Option.some.injEq] at hy
        rw [← hy]
        exact k1
    · exact ih g3

theorem chainB_pairwise_disjoint {lo hi : Int} :
    ∀ {s : List Node}, chainB lo s hi = true →
      List.Pairwise (fun p q => p.r < q.l) s := by
  intro s
  induction s generalizing lo with
  | nil => intro _; exact List.Pairwise.nil
  | cons nd tl ih =>
    intro h
    obtain ⟨g1, g2, g3⟩ := chainB_cons.mp h
    refine List.Pairwise.cons ?_ (ih g3)
    intro q hq
    have := chainB_mem_bounds g3 q hq
    omega

theorem chainB_head_l {lo hi : Int} {s : List Node} (h : chainB lo s hi = true)
    (hne : s ≠ []) : (s.head hne).l = lo := by
  cases s with
  | nil => exact absurd rfl hne
  | cons nd tl =>
    rw [List.head_cons]
    exact (chainB_cons.mp h).1

theorem chainB_getLast_r {lo hi : Int} :
    ∀ {s : List Node} (h : chainB lo s hi = true) (hne : s ≠ []),
      (s.getLast hne).r = hi - 1 := by
  intro s
  induction s generalizing lo with
  | nil => intro _ hne; exact absurd rfl hne
  | cons nd tl ih =>
    intro h hne
    obtain ⟨g1, g2, g3⟩ := chainB_cons.mp h
    cases tl with
    | nil =>
      have : nd.r + 1 = hi := chainB_nil.mp g3
      simp only [List.getLast_singleton]
      omega
    | cons m tl2 =>
      rw [List.getLast_cons (by simp)]
      exact ih g3 (by simp)

/-! ## Index lists -/

theorem idxListGo_append (m n : Nat) :
    ∀ l : Int, idxListGo l (m + n) = idxListGo l m ++ idxListGo (l + m) n := by
  induction m with
  | zero =>
    intro l
    simp [idxListGo]
  | succ m ih =>
    intro l
    have h1 : m + 1 + n = (m + n) + 1 := by omega
    rw [h1]
    show l :: idxListGo (l + 1) (m + n) = (l :: idxListGo (l + 1) m) ++ _
    rw [ih (l + 1), List.cons_append]
    have h2 : l + 1 + (m : Int) = l + ((m : Nat) + 1 : Nat) := by
      push_cast
      ring
    rw [h2]

theorem length_idxListGo : ∀ (n : Nat) (l : Int), (idxListGo l n).length = n := by
  intro n
  induction n with
  | zero => intro l; rfl
  | succ n ih =>
    intro l
    show (idxListGo l (n + 1)).length = n + 1
    rw [idxListGo, List.length_cons, ih (l + 1)]

theorem mem_idxListGo :
    ∀ {n : Nat} {l i : Int}, i ∈ idxListGo l n ↔ l ≤ i ∧ i < l + n := by
  intro n
  induction n with
  | zero =>
    intro l i
    simp only [idxListGo, List.not_mem_nil, false_iff]
    omega
  | succ n ih =>
    intro l i
    rw [idxListGo, List.mem_cons, ih]
    push_cast
    omega

theorem mem_idxList {l r i : Int} : i ∈ idxList l r ↔ l ≤ i ∧ i ≤ r := by
  unfold idxList
  rw [mem_idxListGo]
  omega

theorem length_idxList (l r : Int) : (idxList l r).length = (r + 1 - l).toNat := by
  unfold idxList
  exact length_idxListGo _ l

theorem idxList_split {a b c : Int} (h1 : a ≤ b + 1) (h2 : b ≤ c) :
    idxList a c = idxList a b ++ idxList (b + 1) c := by
  unfold idxList
  have hm : (c + 1 - a).toNat = (b + 1 - a).toNat + (c - b).toNat := by omega
  rw [hm, idxListGo_append]
  have h3 : a + (((b + 1 - a).toNat : Nat) : Int) = b + 1 := by
    have := Int.toNat_of_nonneg (show 0 ≤ b + 1 - a by omega)
    omega
  have h4 : (c - b).toNat = (c + 1 - (b + 1)).toNat := by omega
  rw [h3, h4]

/-! ## Order statistics: flattening `(value, count)` pairs -/

/-- The multiset a `(value, count)` pair list denotes, as a list: each value
repeated `count` times, in order. -/
def flatPairs (ps : List (Int × Int)) : List Int :=
  ps.flatMap (fun p => List.replicate p.2.toNat p.1)

theorem getD_replicate {v d : Int} :
    ∀ {c n : Nat}, n < c → (List.replicate c v).getD n d = v := by
  intro c
  induction c with
  | zero => intro n h; omega
  | succ c ih =>
    intro n h
    rw [List.replicate_succ]
    cases n with
    | zero => rfl
    | succ n =>
      rw [List.getD_cons_succ]
      exact ih (by omega)

theorem flatPairs_cons (p : Int × Int) (tl : List (Int × Int)) :
    flatPairs (p :: tl) = List.replicate p.2.toNat p.1 ++ flatPairs tl :=
  List.flatMap_cons p tl _

theorem kthGo_getD :
    ∀ {ps : List (Int × Int)}, (∀ p ∈ ps, 1 ≤ p.2) → ∀ {k : Int}, 1 ≤ k →
      k ≤ ((flatPairs ps).length : Int) →
      kthGo ps k = (flatPairs ps).getD (k - 1).toNat 0 := by
  intro ps
  induction ps with
  | nil =>
    intro _ k hk1 hk2
    simp [flatPairs] at hk2
    omega
  | cons p tl ih =>
    intro hcnt k hk1 hk2
    obtain ⟨v, c⟩ := p
    have hc : 1 ≤ c := hcnt (v, c) (List.mem_cons_self _ tl)
    rw [flatPairs_cons] at hk2 ⊢
    rw [List.length_append, List.length_replicate] at hk2
    show (if k - c ≤ 0 then v else kthGo tl (k - c)) = _
    by_cases hk : k - c ≤ 0
    · rw [if_pos hk]
      have hlt : (k - 1).toNat < c.toNat := by omega
      rw [List.getD_append _ _ _ _ (by
        rw [List.length_replicate]
        exact hlt)]
      exact (getD_replicate hlt).symm
    · rw [if_neg hk]
      have hge : (List.replicate c.toNat v).length ≤ (k - 1).toNat := by
        rw [List.length_replicate]
        omega
      rw [List.getD_append_right _ _ _ _ hge]
      have harith : (k - 1).toNat - (List.replicate c.toNat v).length =
          (k - c - 1).toNat := by
        rw [List.length_replicate]
        omega
      rw [harith]
      exact ih (fun q hq => hcnt q (List.mem_cons_of_mem _ hq)) (by omega)
        (by push_cast at hk2 ⊢; omega)

theorem kthGo_sentinel :
    ∀ {ps : List (Int × Int)}, (∀ p ∈ ps, 0 ≤ p.2) → ∀ {k : Int},
      ((flatPairs ps).length : Int) < k → kthGo ps k = -1 := by
  intro ps
  induction ps with
  | nil => intro _ k _; rfl
  | cons p tl ih =>
    intro hcnt k hk
    obtain ⟨v, c⟩ := p
    have hc : 0 ≤ c := hcnt (v, c) (List.mem_cons_self _ tl)
    rw [flatPairs_cons, List.length_append, List.length_replicate] at hk
    push_cast at hk
    have htl : ((flatPairs tl).length : Int) < k - c := by omega
    show (if k - c ≤ 0 then v else kthGo tl (k - c)) = -1
    rw [if_neg (by
      have : (0 : Int) ≤ ((flatPairs tl).length : Int) := by positivity
      omega)]
    exact ih (fun q hq => hcnt q (List.mem_cons_of_mem _ hq)) htl

theorem kthGo_nonpos {ps : List (Int × Int)} (hne : ps ≠ [])
    (hcnt : ∀ p ∈ ps, 1 ≤ p.2) {k : Int} (hk : k ≤ 0) :
    kthGo ps k = (ps.head hne).1 := by
  cases ps with
  | nil => exact absurd rfl hne
  | cons p tl =>
    obtain ⟨v, c⟩ := p
    have hc : 1 ≤ c := hcnt (v, c) (List.mem_cons_self _ tl)
    show (if k - c ≤ 0 then v else kthGo tl (k - c)) = v
    rw [if_pos (by omega)]

theorem mem_flatPairs {z : Int} {ps : List (Int × Int)}
    (h : z ∈ flatPairs ps) : ∃ p ∈ ps, z = p.1 := by
  unfold flatPairs at h
  rw [List.mem_flatMap] at h
  obtain ⟨p, hp, hz⟩ := h
  rw [List.mem_replicate] at hz
  exact ⟨p, hp, hz.2⟩

theorem pairLE_trans (a b c : Int × Int) (h1 : pairLE a b = true)
    (h2 : pairLE b c = true) : pairLE a c = true := by
  unfold pairLE at *
  simp only [Bool.or_eq_true, Bool.and_eq_true, decide_eq_true_eq] at *
  omega

theorem pairLE_total (a b : Int × Int) : (pairLE a b || pairLE b a) = true := by
  unfold pairLE
  simp only [Bool.or_eq_true, Bool.and_eq_true, decide_eq_true_eq]
  omega

theorem flatPairs_sorted :
    ∀ {ps : List (Int × Int)},
      List.Pairwise (fun a b => pairLE a b = true) ps →
      List.Pairwise (· ≤ ·) (flatPairs ps) := by
  intro ps
  induction ps with
  | nil => intro _; exact List.Pairwise.nil
  | cons p tl ih =>
    intro h
    obtain ⟨hhead, htail⟩ := List.pairwise_cons.mp h
    rw [flatPairs_cons, List.pairwise_append]
    refine ⟨?_, ih htail, ?_⟩
    · rw [List.pairwise_replicate]
      right
      exact le_refl p.1
    · intro a ha b hb
      rw [List.mem_replicate] at ha
      obtain ⟨q, hq, rfl⟩ := mem_flatPairs hb
      have := hhead q hq
      unfold pairLE at this
      simp only [Bool.or_eq_true, Bool.and_eq_true, decide_eq_true_eq] at this
      rw [ha.2]
      omega

/-! ## The values a chain stores, as replicated node values -/

theorem map_eq_replicate {f : Int → Int} {c : Int} :
    ∀ {xs : List Int}, (∀ x ∈ xs, f x = c) →
      xs.map f = List.replicate xs.length c := by
  intro xs
  induction xs with
  | nil => intro _; rfl
  | cons x tl ih =>
    intro h
    rw [List.map_cons, List.length_cons, List.replicate_succ,
      h x (List.mem_cons_self x tl), ih (fun z hz => h z (List.mem_cons_of_mem x hz))]

theorem vals_eq_flatPairs :
    ∀ {mid : List Node} {lo hi : Int}, chainB lo mid hi = true →
      (idxList lo (hi - 1)).map (valueAt mid) =
        flatPairs (mid.map (fun nd => (nd.v, nd.r - nd.l + 1))) := by
  intro mid
  induction mid with
  | nil =>
    intro lo hi h
    have hlo : lo = hi := chainB_nil.mp h
    subst hlo
    unfold idxList
    have : (lo - 1 + 1 - lo).toNat = 0 := by omega
    rw [this]
    rfl
  | cons nd tl ih =>
    intro lo hi h
    obtain ⟨g1, g2, g3⟩ := chainB_cons.mp h
    have hhi : nd.r + 1 ≤ hi := chainB_le g3
    have hsplit : idxList lo (hi - 1) =
        idxList lo nd.r ++ idxList (nd.r + 1) (hi - 1) := by
      apply idxList_split <;> omega
    rw [hsplit, List.map_append, List.map_cons, flatPairs_cons]
    have h1 : (idxList lo nd.r).map (valueAt (nd :: tl)) =
        List.replicate (idxList lo nd.r).length nd.v := by
      apply map_eq_replicate
      intro i hi2
      rw [mem_idxList] at hi2
      rw [valueAt_cons, if_pos (by omega)]
    have hlen : (idxList lo nd.r).length = ((nd.v, nd.r - nd.l + 1) :
        Int × Int).2.toNat := by
      rw [length_idxList]
      dsimp only
      omega
    have h2 : (idxList (nd.r + 1) (hi - 1)).map (valueAt (nd :: tl)) =
        (idxList (nd.r + 1) (hi - 1)).map (valueAt tl) := by
      apply List.map_congr_left
      intro i hi2
      rw [mem_idxList] at hi2
      rw [valueAt_cons, if_neg (by omega)]
    rw [h1, hlen, h2, ih g3]

/-! ## Core facts for `kth` and `powsum` -/

theorem mid_valueAt {t : Tree} {l r : Int} {pre mid post : List Node}
    (hdec : (split_ (split_ t (r + 1)) l).s = pre ++ (mid ++ post))
    (hPre : chainB 0 pre l = true) (hMid : chainB l mid (r + 1) = true)
    {i : Int} (hi1 : l ≤ i) (hi2 : i ≤ r) :
    valueAt t.s i = valueAt mid i := by
  rw [← rangeSplit_valueAt t l r i, hdec,
    valueAt_append_not_covered _ (chainB_not_covered hPre (Or.inr hi1)),
    valueAt_append_covered _ (chainB_covered hMid hi1 (by omega))]

theorem sortedVals_sorted (t : Tree) (l r : Int) :
    List.Pairwise (· ≤ ·) (sortedVals t l r) := by
  unfold sortedVals
  have h := @List.sorted_mergeSort Int (fun a b : Int => decide (a ≤ b))
    (by intro a b c h1 h2; simp only [decide_eq_true_eq] at *; omega)
    (by intro a b; simp only [Bool.or_eq_true, decide_eq_true_eq]; omega)
    (valsIn t l r)
  refine h.imp ?_
  intro a b hab
  simpa using hab

theorem sortedVals_perm (t : Tree) (l r : Int) :
    (sortedVals t l r).Perm (valsIn t l r) :=
  List.mergeSort_perm (valsIn t l r) _

/-- The central description of `kth`: after the two splits, the sorted
`(value, count)` vector flattens to exactly the ascending list of stored
values over `[l, r]`, every count is at least 1, and the total count is the
sub-range length. -/
theorem kth_core {t : Tree} {l r : Int} (h : Inv t) (h0 : 0 ≤ l)
    (hlr : l ≤ r) (hr : r < t.n) :
    ∃ sorted : List (Int × Int),
      (∀ k : Int, (kth t l r k).2 = kthGo sorted k) ∧
      flatPairs sorted = sortedVals t l r ∧
      (∀ p ∈ sorted, 1 ≤ p.2) ∧
      ((flatPairs sorted).length : Int) = r - l + 1 ∧
      sorted ≠ [] := by
  obtain ⟨pre, mid, post, hdec, hPre, hMid, hPost⟩ := range_decomp h h0 hlr hr
  refine ⟨((mid.map (fun nd => (nd.v, nd.r - nd.l + 1))).mergeSort pairLE),
    ?_, ?_, ?_, ?_, ?_⟩
  case _ =>
    intro k
    show kthGo ((((split_ (split_ t (r + 1)) l).s.filter _).map _).mergeSort
      pairLE) k = _
    rw [hdec, filter_span hPre hMid hPost]
  case _ =>
    -- the flattening is a sorted permutation of the values over [l, r]
    have hperm1 : (flatPairs ((mid.map (fun nd =>
        (nd.v, nd.r - nd.l + 1))).mergeSort pairLE)).Perm
        (flatPairs (mid.map (fun nd => (nd.v, nd.r - nd.l + 1)))) :=
      List.Perm.flatMap_right _ (List.mergeSort_perm _ pairLE)
    have hflat : flatPairs (mid.map (fun nd => (nd.v, nd.r - nd.l + 1))) =
        valsIn t l r := by
      rw [← vals_eq_flatPairs hMid]
      have hr1 : r + 1 - 1 = r := by omega
      rw [hr1]
      unfold valsIn
      apply List.map_congr_left
      intro i hi
      rw [mem_idxList] at hi
      exact (mid_valueAt hdec hPre hMid hi.1 hi.2).symm
    have hsorted1 : List.Pairwise (· ≤ ·)
        (flatPairs ((mid.map (fun nd =>
          (nd.v, nd.r - nd.l + 1))).mergeSort pairLE)) :=
      flatPairs_sorted (List.sorted_mergeSort pairLE_trans pairLE_total _)
    have hperm : (flatPairs ((mid.map (fun nd =>
        (nd.v, nd.r - nd.l + 1))).mergeSort pairLE)).Perm (sortedVals t l r) :=
      (hperm1.trans (hflat ▸ List.Perm.refl _)).trans
        (sortedVals_perm t l r).symm
    exact List.eq_of_perm_of_sorted hperm hsorted1 (sortedVals_sorted t l r)
  case _ =>
    intro p hp
    have hp2 : p ∈ mid.map (fun nd => (nd.v, nd.r - nd.l + 1)) :=
      (List.mergeSort_perm _ pairLE).mem_iff.mp hp
    rw [List.mem_map] at hp2
    obtain ⟨nd, hnd, rfl⟩ := hp2
    have := chainB_mem_bounds hMid nd hnd
    dsimp only
    omega
  case _ =>
    -- total length equals the sub-range length
    have hperm1 : (flatPairs ((mid.map (fun nd =>
        (nd.v, nd.r - nd.l + 1))).mergeSort pairLE)).Perm
        (flatPairs (mid.map (fun nd => (nd.v, nd.r - nd.l + 1)))) :=
      List.Perm.flatMap_right _ (List.mergeSort_perm _ pairLE)
    rw [hperm1.length_eq, ← vals_eq_flatPairs hMid]
    have hr1 : r + 1 - 1 = r := by omega
    rw [hr1, List.length_map, length_idxList]
    omega
  case _ =>
    intro hnil
    have hperm1 : (flatPairs ((mid.map (fun nd =>
        (nd.v, nd.r - nd.l + 1))).mergeSort pairLE)).Perm
        (flatPairs (mid.map (fun nd => (nd.v, nd.r - nd.l + 1)))) :=
      List.Perm.flatMap_right _ (List.mergeSort_perm _ pairLE)
    have hlen := hperm1.length_eq
    rw [hnil] at hlen
    have h2 : (flatPairs (mid.map (fun nd => (nd.v, nd.r - nd.l + 1)))).length
        = 0 := by
      rw [← hlen]
      rfl
    have h3 := vals_eq_flatPairs hMid
    have hr1 : r + 1 - 1 = r := by omega
    rw [hr1] at h3
    rw [← h3, List.length_map, length_idxList] at h2
    omega

/-! ## `powsumGo` computes the weighted power sum mod `y` -/

theorem powsumGo_correct {x y : Int} (hy : 0 < y) :
    ∀ {mid : List Node}, (∀ nd ∈ mid, nd.l ≤ nd.r) → ∀ {ans : Int},
      0 ≤ ans → ans < y →
      powsumGo x y mid ans =
        (ans + (mid.map
          (fun nd => (nd.r - nd.l + 1) * nd.v ^ x.toNat)).sum) % y := by
  intro mid
  induction mid with
  | nil =>
    intro _ ans h1 h2
    show ans = (ans + ([] : List Int).sum) % y
    rw [List.sum_nil, add_zero, Int.emod_eq_of_lt h1 h2]
  | cons nd tl ih =>
    intro hb ans h1 h2
    have hnd := hb nd (List.mem_cons_self nd tl)
    have hlen0 : 0 ≤ nd.r - nd.l + 1 := by omega
    show powsumGo x y tl _ = _
    have hlen : (nd.r - nd.l + 1).tmod y = (nd.r - nd.l + 1) % y :=
      Int.tmod_eq_emod hlen0 (by omega)
    have hqp : qpow_ nd.v x y = (nd.v ^ x.toNat) % y := qpow_correct hy
    have hmm : mulmod_ ((nd.r - nd.l + 1) % y) ((nd.v ^ x.toNat) % y) y =
        (((nd.r - nd.l + 1) % y) * ((nd.v ^ x.toNat) % y)) % y :=
      mulmod_correct hy
    have hinner0 : 0 ≤ ans + (((nd.r - nd.l + 1) % y) *
        ((nd.v ^ x.toNat) % y)) % y := by
      have := Int.emod_nonneg (((nd.r - nd.l + 1) % y) *
        ((nd.v ^ x.toNat) % y)) (show y ≠ 0 by omega)
      omega
    have htm : (ans + (((nd.r - nd.l + 1) % y) *
        ((nd.v ^ x.toNat) % y)) % y).tmod y =
        (ans + (((nd.r - nd.l + 1) % y) * ((nd.v ^ x.toNat) % y)) % y) % y :=
      Int.tmod_eq_emod hinner0 (by omega)
    rw [hlen, hqp, hmm, htm]
    have hb1 : 0 ≤ (ans + (((nd.r - nd.l + 1) % y) *
        ((nd.v ^ x.toNat) % y)) % y) % y := Int.emod_nonneg _ (by omega)
    have hb2 : (ans + (((nd.r - nd.l + 1) % y) *
        ((nd.v ^ x.toNat) % y)) % y) % y < y := Int.emod_lt_of_pos _ hy
    rw [ih (fun q hq => hb q (List.mem_cons_of_mem nd hq)) hb1 hb2]
    have hM : (ans + (((nd.r - nd.l + 1) % y) *
        ((nd.v ^ x.toNat) % y)) % y) % y ≡
        ans + (nd.r - nd.l + 1) * nd.v ^ x.toNat [ZMOD y] := by
      calc (ans + (((nd.r - nd.l + 1) % y) * ((nd.v ^ x.toNat) % y)) % y) % y
          ≡ ans + (((nd.r - nd.l + 1) % y) * ((nd.v ^ x.toNat) % y)) % y
            [ZMOD y] := emod_modEq_self _ y
        _ ≡ ans + ((nd.r - nd.l + 1) % y) * ((nd.v ^ x.toNat) % y) [ZMOD y] :=
            (Int.ModEq.refl ans).add (emod_modEq_self _ y)
        _ ≡ ans + (nd.r - nd.l + 1) * nd.v ^ x.toNat [ZMOD y] :=
            (Int.ModEq.refl ans).add
              ((emod_modEq_self _ y).mul (emod_modEq_self _ y))
    have hfin : ((ans + (((nd.r - nd.l + 1) % y) *
        ((nd.v ^ x.toNat) % y)) % y) % y) +
        (tl.map (fun nd => (nd.r - nd.l + 1) * nd.v ^ x.toNat)).sum ≡
        ans + ((nd :: tl).map
          (fun nd => (nd.r - nd.l + 1) * nd.v ^ x.toNat)).sum [ZMOD y] := by
      rw [List.map_cons, List.sum_cons]
      calc ((ans + (((nd.r - nd.l + 1) % y) *
          ((nd.v ^ x.toNat) % y)) % y) % y) +
          (tl.map (fun nd => (nd.r - nd.l + 1) * nd.v ^ x.toNat)).sum
          ≡ (ans + (nd.r - nd.l + 1) * nd.v ^ x.toNat) +
            (tl.map (fun nd => (nd.r - nd.l + 1) * nd.v ^ x.toNat)).sum
            [ZMOD y] := hM.add (Int.ModEq.refl _)
        _ = ans + ((nd.r - nd.l + 1) * nd.v ^ x.toNat +
            (tl.map (fun nd => (nd.r - nd.l + 1) * nd.v ^ x.toNat)).sum) := by
            ring
    exact hfin

theorem sum_map_pow_flatPairs {e : Nat} :
    ∀ (ps : List (Int × Int)),
      ((flatPairs ps).map (fun z => z ^ e)).sum =
        (ps.map (fun p => (p.2.toNat : Int) * p.1 ^ e)).sum := by
  intro ps
  induction ps with
  | nil => rfl
  | cons p tl ih =>
    rw [flatPairs_cons, List.map_append, List.sum_append, List.map_cons,
      List.sum_cons, List.map_replicate, List.sum_replicate, ih,
      nsmul_eq_mul]

theorem chain_sum_pow {e : Nat} {mid : List Node} {lo hi : Int}
    (h : chainB lo mid hi = true) :
    ((idxList lo (hi - 1)).map (fun i => valueAt mid i ^ e)).sum =
      (mid.map (fun nd => (nd.r - nd.l + 1) * nd.v ^ e)).sum := by
  have h1 : (idxList lo (hi - 1)).map (fun i => valueAt mid i ^ e) =
      ((idxList lo (hi - 1)).map (valueAt mid)).map (fun z => z ^ e) := by
    rw [List.map_map]
    rfl
  rw [h1, vals_eq_flatPairs h, sum_map_pow_flatPairs, List.map_map]
  congr 1
  apply List.map_congr_left
  intro nd hnd
  have := chainB_mem_bounds h nd hnd
  show ((nd.r - nd.l + 1).toNat : Int) * nd.v ^ e = (nd.r - nd.l + 1) * nd.v ^ e
  have ht : ((nd.r - nd.l + 1).toNat : Int) = nd.r - nd.l + 1 :=
    Int.toNat_of_nonneg (by omega)
  rw [ht]

/-! ## Claim theorems -/

/-- C1: for every initial array and every sequence of public operations with
valid in-range arguments, the interval set exactly partitions `[0, n)`:
`start` values are unique and ascending, consecutive intervals satisfy
`next.start = prev.end + 1`, the first interval starts at 0, the last ends at
`n - 1`, and no two intervals overlap. -/
theorem partition_invariant (a : List Int) (ops : List Op)
    (hv : ∀ op ∈ ops, ValidOp (a.length : Int) op) :
    Inv (execList (build a) ops) ∧
    (execList (build a) ops).n = (a.length : Int) ∧
    List.Pairwise (fun p q : Node => p.l < q.l) (execList (build a) ops).s ∧
    List.Pairwise (fun p q : Node => p.r < q.l) (execList (build a) ops).s ∧
    List.Chain' (fun p q : Node => q.l = p.r + 1) (execList (build a) ops).s ∧
    (∀ hne : (execList (build a) ops).s ≠ [],
      ((execList (build a) ops).s.head hne).l = 0 ∧
      ((execList (build a) ops).s.getLast hne).r =
        (execList (build a) ops).n - 1) := by
  have hb : Inv (build a) := build_Inv a
  have h := execList_Inv ops hb hv
  have hch : chainB 0 (execList (build a) ops).s (execList (build a) ops).n
      = true := h.1
  refine ⟨h.1, h.2, ?_, chainB_pairwise_disjoint hch,
    chainB_chain_adjacent hch, ?_⟩
  · refine (chainB_pairwise_disjoint hch).imp_of_mem ?_
    intro p q hp _ hpq
    have := chainB_mem_bounds hch p hp
    omega
  · intro hne
    exact ⟨chainB_head_l hch hne, chainB_getLast_r hch hne⟩

/-- C1 witness: a concrete array and operation sequence with valid
arguments. -/
theorem partition_invariant_witness :
    (∀ op ∈ [Op.assign 0 2 5, Op.add 1 2 4, Op.kth 0 2 2, Op.powsum 0 2 1 7],
        ValidOp (([1, 2, 3] : List Int).length : Int) op) ∧
    Inv (execList (build [1, 2, 3])
      [Op.assign 0 2 5, Op.add 1 2 4, Op.kth 0 2 2, Op.powsum 0 2 1 7]) := by
  refine ⟨by decide, ?_⟩
  exact (partition_invariant [1, 2, 3] _ (by decide)).1

/-- C2: `split_` keeps the boundary cases as no-ops; in the interior it
guarantees an interval starting at `pos`, changing at most one interval (the
one strictly containing `pos`, replaced by the two halves with the same
value); coverage, every stored value, and the invariant are preserved. -/
theorem split_spec {t : Tree} (pos : Int) (h : Inv t) :
    (pos ≤ 0 → split_ t pos = t) ∧
    (t.n ≤ pos → split_ t pos = t) ∧
    (0 < pos → pos < t.n →
      (∃ nd ∈ (split_ t pos).s, nd.l = pos) ∧
      ((split_ t pos).s = t.s ∨
        ∃ pre nd post, t.s = pre ++ nd :: post ∧ nd.l < pos ∧ pos ≤ nd.r ∧
          (split_ t pos).s = pre ++ (⟨nd.l, pos - 1, nd.v⟩ : Node) ::
            (⟨pos, nd.r, nd.v⟩ : Node) :: post)) ∧
    (∀ i, valueAt (split_ t pos).s i = valueAt t.s i) ∧
    Inv (split_ t pos) ∧ (split_ t pos).n = t.n := by
  refine ⟨?_, ?_, ?_, split_valueAt t pos, split_Inv pos h, split_n t pos⟩
  · intro h1
    unfold split_
    rw [if_pos h1]
  · intro h1
    unfold split_
    split_ifs with h2
    · rfl
    · rfl
  · intro h1 h2
    constructor
    · obtain ⟨A, B, hAB, hA, hB⟩ := @split_decomp t pos h (by omega) (by omega)
      cases B with
      | nil =>
        have : pos = t.n := chainB_nil.mp hB
        omega
      | cons nd tl =>
        obtain ⟨g1, _, _⟩ := chainB_cons.mp hB
        refine ⟨nd, ?_, g1⟩
        rw [hAB]
        exact List.mem_append_right A (List.mem_cons_self nd tl)
    · have huf : (split_ t pos).s = splitGo pos t.s := by
        unfold split_
        rw [if_neg (by omega), if_neg (by omega)]
      rw [huf]
      rcases splitGo_shape pos t.s with hsh | ⟨pre, nd, post, hs, hm1, hm2, hsp⟩
      · exact Or.inl hsh
      · exact Or.inr ⟨pre, nd, post, hs, hm1, hm2, hsp⟩

/-- C2 witness: the interior split of a three-element run at position 2. -/
theorem split_spec_witness :
    Inv (assign (build [1, 1, 1]) 0 2 5) ∧
    (∀ i, valueAt (split_ (assign (build [1, 1, 1]) 0 2 5) 2).s i =
      valueAt (assign (build [1, 1, 1]) 0 2 5).s i) ∧
    Inv (split_ (assign (build [1, 1, 1]) 0 2 5) 2) := by
  refine ⟨by decide, ?_, ?_⟩
  · exact (split_spec 2 (by decide)).2.2.2.1
  · exact (split_spec 2 (by decide)).2.2.2.2.1

/-- C6: `add(l, r, x)` adds `x` to the value at every index of `[l, r]`,
leaves every value outside `[l, r]` unchanged, and creates or destroys no
interval beyond the two boundary splits at `r + 1` and `l`: the interval
endpoints after `add` are exactly those after the two splits. -/
theorem add_frame {t : Tree} {l r : Int} (x : Int) (h : Inv t) (h0 : 0 ≤ l)
    (hlr : l ≤ r) (hr : r < t.n) :
    (∀ i, l ≤ i → i ≤ r → valueAt (add t l r x).s i = valueAt t.s i + x) ∧
    (∀ i, i < l ∨ r < i → valueAt (add t l r x).s i = valueAt t.s i) ∧
    (add t l r x).s.map (fun nd => (nd.l, nd.r)) =
      (split_ (split_ t (r + 1)) l).s.map (fun nd => (nd.l, nd.r)) ∧
    Inv (add t l r x) ∧ (add t l r x).n = t.n := by
  refine ⟨fun i hi1 hi2 => add_valueAt_in h h0 hlr hr hi1 hi2,
    fun i hi => add_valueAt_out h h0 hlr hr hi, ?_,
    add_Inv x h h0 hlr hr, add_n t l r x⟩
  show ((split_ (split_ t (r + 1)) l).s.map _).map _ = _
  rw [List.map_map]
  apply List.map_congr_left
  intro nd _
  show (fun nd => ((nd.l, nd.r) : Int × Int))
      (if l ≤ nd.l ∧ nd.l < r + 1 then ⟨nd.l, nd.r, nd.v + x⟩ else nd) = _
  by_cases hc : l ≤ nd.l ∧ nd.l < r + 1
  · rw [if_pos hc]
  · rw [if_neg hc]

/-- C6 witness: adding 10 on the middle of a five-element array. -/
theorem add_frame_witness :
    Inv (build [1, 2, 3, 4, 5]) ∧
    (∀ i, (1 : Int) ≤ i → i ≤ 3 →
      valueAt (add (build [1, 2, 3, 4, 5]) 1 3 10).s i =
        valueAt (build [1, 2, 3, 4, 5]).s i + 10) ∧
    (∀ i, i < (1 : Int) ∨ (3 : Int) < i →
      valueAt (add (build [1, 2, 3, 4, 5]) 1 3 10).s i =
        valueAt (build [1, 2, 3, 4, 5]).s i) := by
  refine ⟨by decide, ?_, ?_⟩
  · exact (add_frame 10 (by decide) (by decide) (by decide) (by decide)).1
  · exact (add_frame 10 (by decide) (by decide) (by decide) (by decide)).2.1

/-- C8: `add(l, r, x)` followed by `add(l, r, -x)` restores the value at
every index of `[0, n)` (indeed at every index) to its prior state. -/
theorem add_then_add_neg_restores {t : Tree} {l r : Int} (x : Int)
    (h : Inv t) (h0 : 0 ≤ l) (hlr : l ≤ r) (hr : r < t.n) :
    ∀ i : Int, valueAt (add (add t l r x) l r (-x)).s i = valueAt t.s i := by
  intro i
  have h1 : Inv (add t l r x) := add_Inv x h h0 hlr hr
  have hn : (add t l r x).n = t.n := add_n t l r x
  by_cases hi : l ≤ i ∧ i ≤ r
  · rw [add_valueAt_in h1 h0 hlr (by omega) hi.1 hi.2,
      add_valueAt_in h h0 hlr hr hi.1 hi.2]
    ring
  · have hi2 : i < l ∨ r < i := by omega
    rw [add_valueAt_out h1 h0 hlr (by omega) hi2,
      add_valueAt_out h h0 hlr hr hi2]

/-- C8 witness: add 7 then -7 on `[0, 2]` of a three-element array. -/
theorem add_then_add_neg_restores_witness :
    Inv (build [4, 5, 6]) ∧
    (∀ i : Int,
      valueAt (add (add (build [4, 5, 6]) 0 2 7) 0 2 (-7)).s i =
        valueAt (build [4, 5, 6]).s i) := by
  refine ⟨by decide, ?_⟩
  exact add_then_add_neg_restores 7 (by decide) (by decide) (by decide)
    (by decide)

/-- C3: `assign(l, r, x)` leaves exactly one interval `[l, r, x]` covering the
target range — it is present exactly once, every other remaining interval is
disjoint from `[l, r]`, the value at every index of `[l, r]` is `x`, values
outside are unchanged, and the invariant is preserved. -/
theorem assign_spec {t : Tree} {l r : Int} (x : Int) (h : Inv t) (h0 : 0 ≤ l)
    (hlr : l ≤ r) (hr : r < t.n) :
    (⟨l, r, x⟩ : Node) ∈ (assign t l r x).s ∧
    (assign t l r x).s.count (⟨l, r, x⟩ : Node) = 1 ∧
    (∀ nd ∈ (assign t l r x).s, nd ≠ ⟨l, r, x⟩ → nd.r < l ∨ r < nd.l) ∧
    (∀ i, l ≤ i → i ≤ r → valueAt (assign t l r x).s i = x) ∧
    (∀ i, i < l ∨ r < i → valueAt (assign t l r x).s i = valueAt t.s i) ∧
    Inv (assign t l r x) ∧ (assign t l r x).n = t.n := by
  obtain ⟨pre, mid, post, hdec, hPre, hMid, hPost, hass⟩ :=
    assign_decomp x h h0 hlr hr
  have hpre_ne : ∀ nd ∈ pre, nd ≠ (⟨l, r, x⟩ : Node) ∧ (nd.r < l ∨ r < nd.l) := by
    intro nd hnd
    have hb := chainB_mem_bounds hPre nd hnd
    constructor
    · intro hEq
      rw [hEq] at hb
      dsimp only at hb
      omega
    · left
      omega
  have hpost_ne : ∀ nd ∈ post, nd ≠ (⟨l, r, x⟩ : Node) ∧
      (nd.r < l ∨ r < nd.l) := by
    intro nd hnd
    have hb := chainB_mem_bounds hPost nd hnd
    constructor
    · intro hEq
      rw [hEq] at hb
      dsimp only at hb
      omega
    · right
      omega
  refine ⟨?_, ?_, ?_, fun i hi1 hi2 => assign_valueAt_in h h0 hlr hr hi1 hi2,
    fun i hi => assign_valueAt_out h h0 hlr hr hi,
    assign_Inv x h h0 hlr hr, assign_n t l r x⟩
  · rw [hass]
    exact List.mem_append_right _ (List.mem_cons_self _ _)
  · rw [hass, List.count_append, List.count_cons_self]
    have h1 : pre.count (⟨l, r, x⟩ : Node) = 0 :=
      List.count_eq_zero.mpr (fun hmem => (hpre_ne _ hmem).1 rfl)
    have h2 : post.count (⟨l, r, x⟩ : Node) = 0 :=
      List.count_eq_zero.mpr (fun hmem => (hpost_ne _ hmem).1 rfl)
    rw [h1, h2]
  · intro nd hnd hne
    rw [hass] at hnd
    rcases List.mem_append.mp hnd with hnd | hnd
    · exact (hpre_ne nd hnd).2
    · rcases List.mem_cons.mp hnd with hnd | hnd
      · exact absurd hnd hne
      · exact (hpost_ne nd hnd).2

/-- C3 witness: `build([1,1,1,1])` then `assign(0,3,9)` collapses the store
to the single interval `[0, 3, 9]` (internal interval count 1). -/
theorem assign_spec_witness :
    Inv (build [1, 1, 1, 1]) ∧
    (⟨0, 3, 9⟩ : Node) ∈ (assign (build [1, 1, 1, 1]) 0 3 9).s ∧
    (assign (build [1, 1, 1, 1]) 0 3 9).s.length = 1 := by
  refine ⟨by decide, ?_, by decide⟩
  exact (assign_spec 9 (by decide) (by decide) (by decide) (by decide)).1

/-- C4: on a valid range, `kth(l, r, k)` with `1 ≤ k ≤ r - l + 1` returns the
`k`-th smallest element of the multiset of stored values over `[l, r]`
(position `k-1` of the ascending sorted value list); with `k > r - l + 1` it
returns the sentinel `-1`; in both cases no stored value is mutated. -/
theorem kth_spec {t : Tree} {l r : Int} (k : Int) (h : Inv t) (h0 : 0 ≤ l)
    (hlr : l ≤ r) (hr : r < t.n) :
    (1 ≤ k → k ≤ r - l + 1 →
      (kth t l r k).2 = (sortedVals t l r).getD (k - 1).toNat 0) ∧
    (r - l + 1 < k → (kth t l r k).2 = -1) ∧
    (∀ i, valueAt (kth t l r k).1.s i = valueAt t.s i) ∧
    Inv (kth t l r k).1 := by
  obtain ⟨sorted, hAns, hFlat, hCnt, hLen, hNe⟩ := kth_core h h0 hlr hr
  refine ⟨?_, ?_, ?_, ?_⟩
  · intro hk1 hk2
    rw [hAns k, kthGo_getD hCnt hk1 (by rw [hLen]; exact hk2), hFlat]
  · intro hk
    rw [hAns k]
    exact kthGo_sentinel (fun p hp => by have := hCnt p hp; omega)
      (by rw [hLen]; exact hk)
  · intro i
    exact rangeSplit_valueAt t l r i
  · exact rangeSplit_Inv l r h

/-- C4 witness: `build([5])`, where `kth(0,0,1)` has a valid rank and
`kth(0,0,2)` has an invalid one. -/
theorem kth_spec_witness :
    Inv (build [5]) ∧
    (kth (build [5]) 0 0 1).2 = (sortedVals (build [5]) 0 0).getD 0 0 ∧
    (kth (build [5]) 0 0 2).2 = -1 := by
  refine ⟨by decide, ?_, ?_⟩
  · exact (kth_spec 1 (by decide) (by decide) (by decide) (by decide)).1
      (by decide) (by decide)
  · exact (kth_spec 2 (by decide) (by decide) (by decide) (by decide)).2.1
      (by decide)

/-- C5: on a valid range with `x ≥ 0` and `y > 0`, `powsum(l, r, x, y)`
returns `(Σ_{i=l..r} value_i ^ x) mod y`, an integer in `[0, y)`. -/
theorem powsum_spec {t : Tree} {l r : Int} (x y : Int) (h : Inv t)
    (h0 : 0 ≤ l) (hlr : l ≤ r) (hr : r < t.n) (hx : 0 ≤ x) (hy : 0 < y) :
    (powsum t l r x y).2 =
      ((idxList l r).map (fun i => valueAt t.s i ^ x.toNat)).sum % y ∧
    0 ≤ (powsum t l r x y).2 ∧ (powsum t l r x y).2 < y := by
  obtain ⟨pre, mid, post, hdec, hPre, hMid, hPost⟩ := range_decomp h h0 hlr hr
  have hres : (powsum t l r x y).2 = powsumGo x y mid 0 := by
    show powsumGo x y ((split_ (split_ t (r + 1)) l).s.filter _) 0 = _
    rw [hdec, filter_span hPre hMid hPost]
  have hmidb : ∀ nd ∈ mid, nd.l ≤ nd.r :=
    fun nd hnd => (chainB_mem_bounds hMid nd hnd).2.1
  have hsum := @chain_sum_pow x.toNat mid l (r + 1) hMid
  have hr1 : r + 1 - 1 = r := by omega
  rw [hr1] at hsum
  have hcongr : (idxList l r).map (fun i => valueAt mid i ^ x.toNat) =
      (idxList l r).map (fun i => valueAt t.s i ^ x.toNat) := by
    apply List.map_congr_left
    intro i hi
    rw [mem_idxList] at hi
    rw [mid_valueAt hdec hPre hMid hi.1 hi.2]
  have hmain : (powsum t l r x y).2 =
      ((idxList l r).map (fun i => valueAt t.s i ^ x.toNat)).sum % y := by
    rw [hres, powsumGo_correct hy hmidb le_rfl hy, zero_add, ← hsum, hcongr]
  exact ⟨hmain, by rw [hmain]; exact Int.emod_nonneg _ (by omega),
    by rw [hmain]; exact Int.emod_lt_of_pos _ hy⟩

/-- C5 witness: `build([2,3])`; `powsum(0,1,2,1000) = (4 + 9) % 1000 = 13`. -/
theorem powsum_spec_witness :
    Inv (build [2, 3]) ∧
    (powsum (build [2, 3]) 0 1 2 1000).2 =
      ((idxList 0 1).map
        (fun i => valueAt (build [2, 3]).s i ^ (2 : Int).toNat)).sum % 1000 ∧
    (powsum (build [2, 3]) 0 1 2 1000).2 = 13 := by
  refine ⟨by decide, ?_, by decide⟩
  exact (powsum_spec 2 1000 (by decide) (by decide) (by decide) (by decide)
    (by decide) (by decide)).1

/-- C7 counterexample: with `mod = 2^63 - 1` (a positive signed 64-bit
modulus) and the normalised operands `2^63 - 2` and `3`, the loop's
`res += a` intermediate exceeds the signed 64-bit maximum, so the claim's
"no intermediate computation exceeds the operands' own integer width" fails
on 64-bit inputs as stated. -/
theorem mulmod_width_counterexample :
    mulmodOverflows (2 ^ 63 - 2) 3 (2 ^ 63 - 1) = true := by decide

/-- C7 amended: for every `mod > 0`, `mulmod_` returns exactly
`(a * b) mod mod`, a value in `[0, mod)`; and whenever additionally
`mod ≤ 2^62`, no intermediate sum of the loop exceeds the signed 64-bit
range. -/
theorem mulmod_amended {a b mod : Int} (h : 0 < mod) :
    mulmod_ a b mod = (a * b) % mod ∧ 0 ≤ mulmod_ a b mod ∧
    mulmod_ a b mod < mod ∧
    (mod ≤ 2 ^ 62 → mulmodOverflows a b mod = false) := by
  obtain ⟨h1, h2⟩ := @mulmod_range a b mod h
  exact ⟨mulmod_correct h, h1, h2, fun hs => mulmodOverflows_false h hs⟩

/-- C7 amended witness: `mulmod_(5, 7, 11) = 35 % 11` with no overflow. -/
theorem mulmod_amended_witness :
    (0 : Int) < 11 ∧ mulmod_ 5 7 11 = (5 * 7) % 11 ∧
    mulmodOverflows 5 7 11 = false :=
  ⟨by decide, (@mulmod_amended 5 7 11 (by decide)).1,
    (@mulmod_amended 5 7 11 (by decide)).2.2.2 (by decide)⟩

/-- C9: the code does not reject strictly invalid ranges.  On the
single-run state `assign(build([1,1,1]), 0, 2, 5)`, the reversed-range call
`add(2, 0, 9)` starts with `split_(r+1) = split_(1)` and `split_(l) =
split_(2)`, which already subdivide the partition — mutation happens before
any validation could reject the call (and the subsequent iterator range is
reversed, which `std::set` iteration does not support). -/
theorem invalid_range_not_rejected :
    (split_ (split_ (assign (build [1, 1, 1]) 0 2 5) (0 + 1)) 2).s ≠
      (assign (build [1, 1, 1]) 0 2 5).s := by decide

/-- C10: on a valid non-empty range, `kth(l, r, k)` with `k ≤ 0` returns the
smallest stored value over `[l, r]` (a value attained on the range and a
lower bound of all of them) rather than the `-1` sentinel path. -/
theorem kth_nonpos_rank {t : Tree} {l r : Int} (k : Int) (h : Inv t)
    (h0 : 0 ≤ l) (hlr : l ≤ r) (hr : r < t.n) (hk : k ≤ 0) :
    (∃ i, l ≤ i ∧ i ≤ r ∧ (kth t l r k).2 = valueAt t.s i) ∧
    (∀ i, l ≤ i → i ≤ r → (kth t l r k).2 ≤ valueAt t.s i) := by
  obtain ⟨sorted, hAns, hFlat, hCnt, hLen, hNe⟩ := kth_core h h0 hlr hr
  cases sorted with
  | nil => exact absurd rfl hNe
  | cons p tl =>
    have hc1 : 1 ≤ p.2 := hCnt p (List.mem_cons_self p tl)
    have hres : (kth t l r k).2 = p.1 := by
      rw [hAns k, kthGo_nonpos hNe hCnt hk, List.head_cons]
    have hsv : sortedVals t l r =
        p.1 :: (List.replicate (p.2.toNat - 1) p.1 ++ flatPairs tl) := by
      rw [← hFlat, flatPairs_cons]
      have h2 : p.2.toNat = (p.2.toNat - 1) + 1 := by omega
      rw [h2, List.replicate_succ, List.cons_append]
      rfl
    have hmemP : p.1 ∈ valsIn t l r := by
      apply (sortedVals_perm t l r).subset
      rw [hsv]
      exact List.mem_cons_self _ _
    constructor
    · unfold valsIn at hmemP
      rw [List.mem_map] at hmemP
      obtain ⟨i, hi, hv⟩ := hmemP
      rw [mem_idxList] at hi
      exact ⟨i, hi.1, hi.2, by rw [hres, ← hv]⟩
    · intro i hi1 hi2
      have hmem : valueAt t.s i ∈ sortedVals t l r := by
        apply ((sortedVals_perm t l r).symm).subset
        unfold valsIn
        rw [List.mem_map]
        exact ⟨i, mem_idxList.mpr ⟨hi1, hi2⟩, rfl⟩
      have hsorted := sortedVals_sorted t l r
      rw [hsv] at hmem hsorted
      rw [hres]
      rcases List.mem_cons.mp hmem with heq | hmem2
      · rw [heq]
      · exact List.rel_of_pairwise_cons hsorted hmem2

/-- C10 witness: `kth(0, 2, 0)` on `build([3,1,2])` yields the minimum. -/
theorem kth_nonpos_rank_witness :
    Inv (build [3, 1, 2]) ∧
    (∃ i, (0 : Int) ≤ i ∧ i ≤ 2 ∧
      (kth (build [3, 1, 2]) 0 2 0).2 = valueAt (build [3, 1, 2]).s i) := by
  refine ⟨by decide, ?_⟩
  exact (kth_nonpos_rank 0 (by decide) (by decide) (by decide) (by decide)
    (by decide)).1

end Chtholly
